import Mathlib

/-!
Verification of the `witch` command locator (src/main.py) against its
specification.  Strings are modelled as `List Char`; the similarity engine
(`difflib.SequenceMatcher` with `isjunk = None`, `autojunk = True`, as used by
`difflib.get_close_matches` and `highlight_differences`) is embedded as
executable functions; floating-point ratios are modelled as exact rationals.
-/

set_option maxRecDepth 10000

namespace WitchSpec

/-! ## Color-code stripping (src/main.py `strip_ansi`, regex `\033\[[0-9;]*m`) -/

/-- A character that may appear between `ESC[` and `m`: a digit or `;`. -/
def seqChar (c : Char) : Bool := c.isDigit || c == ';'

/-- A complete color-control sequence: ESC, `[`, digits/semicolons, `m`. -/
def mkSeq (ds : List Char) : List Char := '\x1b' :: '[' :: (ds ++ ['m'])

/-- Consume `[0-9;]*m` greedily; return the remainder on success.  Mirrors the
regex engine: the starred class cannot contain `m`, so the match succeeds
exactly when the first non-class character is `m`. -/
def eatSeq : List Char → Option (List Char)
  | [] => none
  | c :: rest => if c = 'm' then some rest else if seqChar c then eatSeq rest else none

/-- Try to match `\[[0-9;]*m` at the current position (the ESC has been seen). -/
def tryMatch : List Char → Option (List Char)
  | [] => none
  | c :: rest => if c = '[' then eatSeq rest else none

/-- Fuel-driven scanner for `re.sub(r'\033\[[0-9;]*m', '', text)`: scan left to
right, removing each leftmost match and continuing after it. -/
def stripGo : Nat → List Char → List Char
  | 0, l => l
  | _ + 1, [] => []
  | fuel + 1, c :: rest =>
    if c = '\x1b' then
      match tryMatch rest with
      | some rest2 => stripGo fuel rest2
      | none => c :: stripGo fuel rest
    else c :: stripGo fuel rest

/-- `strip_ansi` from src/main.py, on character lists. -/
def stripAnsi (l : List Char) : List Char := stripGo l.length l

/-- Does the string contain a complete color-control sequence anywhere? -/
def hasSeq : List Char → Bool
  | [] => false
  | c :: rest => ((c == '\x1b') && (tryMatch rest).isSome) || hasSeq rest

/-! ### Semantic characterization of sequence occurrence -/

/-- The string contains a complete color-control sequence somewhere. -/
def containsSeqSpec (s : List Char) : Prop :=
  ∃ u ds v, (∀ c ∈ ds, seqChar c = true) ∧ s = u ++ mkSeq ds ++ v

/-! ## Width model (C5)

Modelled from the spec: the Width Calculator is the external `wcwidth`
library's `wcswidth`, which is not part of this repository.  Per §4.1 of the
spec, each character occupies 0 columns (zero-width characters), 2 columns
(East-Asian wide characters, "per standard East-Asian-width rules") or 1
column, and a string's visible width is the sum; representative standard
ranges stand in for the full Unicode tables. -/

def charWidthM (c : Char) : Nat :=
  if 0x300 ≤ c.toNat ∧ c.toNat ≤ 0x36F then 0
  else if (0x1100 ≤ c.toNat ∧ c.toNat ≤ 0x115F) ∨ (0x2E80 ≤ c.toNat ∧ c.toNat ≤ 0x303E)
      ∨ (0x3041 ≤ c.toNat ∧ c.toNat ≤ 0x33FF) ∨ (0x4E00 ≤ c.toNat ∧ c.toNat ≤ 0x9FFF)
      ∨ (0xAC00 ≤ c.toNat ∧ c.toNat ≤ 0xD7A3) ∨ (0xF900 ≤ c.toNat ∧ c.toNat ≤ 0xFAFF)
      ∨ (0xFF00 ≤ c.toNat ∧ c.toNat ≤ 0xFF60) ∨ (0xFFE0 ≤ c.toNat ∧ c.toNat ≤ 0xFFE6) then 2
  else 1

def wcswidthM (l : List Char) : Nat := (l.map charWidthM).sum

/-- The measurement inside `pad_string`: `wcswidth(strip_ansi(text))`. -/
def visibleWidth (l : List Char) : Nat := wcswidthM (stripAnsi l)

/-- `pad_string` from src/main.py: append spaces up to the desired visible
width.  Python's `" " * n` is empty for negative `n`, exactly like truncated
`Nat` subtraction. -/
def padString (l : List Char) (w : Nat) : List Char :=
  l ++ List.replicate (w - visibleWidth l) ' '

/-! ## Claim C6: the Color-Code Stripper -/

/-- A string assembled from plain parts interleaved with complete
color-control sequences. -/
def interleave : List (List Char × List Char) → List Char → List Char
  | [], tl => tl
  | pc :: rest, tl => pc.1 ++ mkSeq pc.2 ++ interleave rest tl

/-! ## difflib.SequenceMatcher embedding

The repository calls `difflib.SequenceMatcher(None, ...)` and
`difflib.get_close_matches` (which uses `SequenceMatcher()`), so `isjunk` is
always `None` and `autojunk` is `True`.  Consequently `self.bjunk = ∅` (the
junk-extension loops of `find_longest_match` never run, and `not isbjunk(...)`
is always true in the other two), while `self.bpopular` removes popular
elements from `b2j` when `len(b) >= 200`. -/

/-- The result of `find_longest_match`: `Match(a=i, b=j, size)`. -/
structure FLMatch where
  i : Nat
  j : Nat
  size : Nat
deriving DecidableEq

/-- `autojunk`: with `len(b) >= 200`, characters occurring more than
`len(b) // 100 + 1` times are "popular" and deleted from `b2j`. -/
def isPopular (b : List Char) (c : Char) : Bool :=
  decide (200 ≤ b.length) && decide (b.length / 100 + 1 < b.count c)

/-- The ascending list of positions of `c` in `b` (the `b2j` entry before
popularity filtering). -/
def positionsOf (b : List Char) (c : Char) : List Nat :=
  (List.range b.length).filter (fun j => b[j]? == some c)

/-- `b2j[c]` after the autojunk deletion of popular entries. -/
def b2jList (b : List Char) (c : Char) : List Nat :=
  if isPopular b c then [] else positionsOf b c

/-- The positions iterated by the inner loop of `find_longest_match` at row
`i`: `b2j.get(a[i], [])`, restricted to `blo <= j < bhi` (the `continue` /
`break` on an ascending list). -/
def rowIndices (a b : List Char) (blo bhi i : Nat) : List Nat :=
  match a[i]? with
  | some c => (b2jList b c).filter (fun j => decide (blo ≤ j) && decide (j < bhi))
  | none => []

/-- `k = j2len.get(j-1, 0) + 1`: the dictionary never has key `-1`, so `j = 0`
always reads the default 0. -/
def dpK (j2old : Nat → Nat) (j : Nat) : Nat :=
  if j = 0 then 1 else j2old (j - 1) + 1

/-- Pointwise dictionary update `newj2len[j] = v` (absent keys read as 0). -/
def updFn (f : Nat → Nat) (j v : Nat) : Nat → Nat :=
  fun x => if x = j then v else f x

/-- The best-candidate update on strict improvement
(`besti, bestj = i-k+1, j-k+1`). -/
def bestUpd (i j k : Nat) (best : FLMatch) : FLMatch :=
  if best.size < k then FLMatch.mk (i + 1 - k) (j + 1 - k) k else best

/-- Inner loop of `find_longest_match`: for each `j`, set
`k = newj2len[j] = j2len.get(j-1, 0) + 1` and update the running best. -/
def innerLoop (j2old : Nat → Nat) (i : Nat) :
    List Nat → (Nat → Nat) → FLMatch → ((Nat → Nat) × FLMatch)
  | [], j2new, best => (j2new, best)
  | j :: js, j2new, best =>
    innerLoop j2old i js (updFn j2new j (dpK j2old j)) (bestUpd i j (dpK j2old j) best)

/-- Outer loop of `find_longest_match` over the rows `range(alo, ahi)`;
each row starts from a fresh `newj2len = {}`. -/
def outerLoop (a b : List Char) (blo bhi : Nat) :
    List Nat → ((Nat → Nat) × FLMatch) → ((Nat → Nat) × FLMatch)
  | [], st => st
  | i :: rows, st =>
    let st2 := innerLoop st.1 i (rowIndices a b blo bhi i) (fun _ => 0) st.2
    outerLoop a b blo bhi rows st2

/-- `a[i] == b[j]`, false when either index is out of range (the source only
compares in-range indices). -/
def sameAt (a b : List Char) (i j : Nat) : Bool :=
  match a[i]?, b[j]? with
  | some x, some y => x == y
  | _, _ => false

/-- First extension loop: extend the best match backwards over equal
(automatically non-junk, `bjunk = ∅`) elements. -/
def extendBack (a b : List Char) (alo blo : Nat) : Nat → Nat → Nat → FLMatch
  | 0, bj, sz => ⟨0, bj, sz⟩
  | bi + 1, bj, sz =>
    if alo < bi + 1 && blo < bj && sameAt a b bi (bj - 1) then
      extendBack a b alo blo bi (bj - 1) (sz + 1)
    else ⟨bi + 1, bj, sz⟩

/-- Second extension loop (fuel-driven; the fuel is the remaining room
`ahi - (besti + size)`, which bounds the number of iterations). -/
def extFwdGo (a b : List Char) (ahi bhi : Nat) : Nat → Nat → Nat → Nat → FLMatch
  | 0, bi, bj, sz => ⟨bi, bj, sz⟩
  | fuel + 1, bi, bj, sz =>
    if bi + sz < ahi && bj + sz < bhi && sameAt a b (bi + sz) (bj + sz) then
      extFwdGo a b ahi bhi fuel bi bj (sz + 1)
    else ⟨bi, bj, sz⟩

def extendFwd (a b : List Char) (ahi bhi : Nat) (bi bj sz : Nat) : FLMatch :=
  extFwdGo a b ahi bhi (ahi - (bi + sz)) bi bj sz

/-- `find_longest_match(alo, ahi, blo, bhi)`: the dynamic-programming pass
followed by the two (non-junk) extension loops; the junk-extension loops never
run because `bjunk = ∅`. -/
def findLongestMatch (a b : List Char) (alo ahi blo bhi : Nat) : FLMatch :=
  let st := outerLoop a b blo bhi (List.range' alo (ahi - alo))
    (fun _ => 0, FLMatch.mk alo blo 0)
  let m1 := extendBack a b alo blo st.2.i st.2.j st.2.size
  extendFwd a b ahi bhi m1.i m1.j m1.size

/-- The recursive block collection of `get_matching_blocks` (the LIFO queue is
a depth-first recursion; the collected multiset is sorted afterwards, so the
collection order is irrelevant).  Fuel-driven: each sub-range is strictly
shorter in `ahi - alo`. -/
def mbGo (a b : List Char) : Nat → Nat → Nat → Nat → Nat → List (Nat × Nat × Nat)
  | 0, _, _, _, _ => []
  | fuel + 1, alo, ahi, blo, bhi =>
    if 1 ≤ (findLongestMatch a b alo ahi blo bhi).size then
      mbGo a b fuel alo (findLongestMatch a b alo ahi blo bhi).i blo
          (findLongestMatch a b alo ahi blo bhi).j
        ++ ((findLongestMatch a b alo ahi blo bhi).i,
            (findLongestMatch a b alo ahi blo bhi).j,
            (findLongestMatch a b alo ahi blo bhi).size)
          :: mbGo a b fuel
              ((findLongestMatch a b alo ahi blo bhi).i
                + (findLongestMatch a b alo ahi blo bhi).size) ahi
              ((findLongestMatch a b alo ahi blo bhi).j
                + (findLongestMatch a b alo ahi blo bhi).size) bhi
    else []

def matchingBlocksRec (a b : List Char) (alo ahi blo bhi : Nat) : List (Nat × Nat × Nat) :=
  mbGo a b (ahi - alo) alo ahi blo bhi

/-- Lexicographic order on block triples: `matching_blocks.sort()`. -/
def blockLe (x y : Nat × Nat × Nat) : Prop :=
  x.1 < y.1 ∨ (x.1 = y.1 ∧ (x.2.1 < y.2.1 ∨ (x.2.1 = y.2.1 ∧ x.2.2 ≤ y.2.2)))

instance blockLeDecidable : DecidableRel blockLe := fun x y => by
  unfold blockLe; infer_instance

/-- The second phase of `get_matching_blocks`: collapse adjacent blocks
(`i1 + k1 == i2 and j1 + k1 == j2`), starting from `(0, 0, 0)` and emitting a
pending block only when `k1` is nonzero. -/
def mergeAdjacent : List (Nat × Nat × Nat) → Nat → Nat → Nat → List (Nat × Nat × Nat)
  | [], i1, j1, k1 => if 1 ≤ k1 then [(i1, j1, k1)] else []
  | (i2, j2, k2) :: rest, i1, j1, k1 =>
    if i1 + k1 = i2 ∧ j1 + k1 = j2 then mergeAdjacent rest i1 j1 (k1 + k2)
    else if 1 ≤ k1 then (i1, j1, k1) :: mergeAdjacent rest i2 j2 k2
    else mergeAdjacent rest i2 j2 k2

/-- `get_matching_blocks`: collect, sort, merge adjacent, append the
`(len(a), len(b), 0)` terminator. -/
def getMatchingBlocks (a b : List Char) : List (Nat × Nat × Nat) :=
  mergeAdjacent
    (List.insertionSort blockLe (matchingBlocksRec a b 0 a.length 0 b.length)) 0 0 0
    ++ [(a.length, b.length, 0)]

/-- `_calculate_ratio(matches, length)`, with exact rational arithmetic in
place of binary floating point. -/
def calcRatioQ (mtot len : Nat) : ℚ :=
  if 1 ≤ len then mkRat (2 * (mtot : Int)) len else 1

/-- `sum(triple[-1] for triple in self.get_matching_blocks())`. -/
def matchesTotal (a b : List Char) : Nat :=
  ((getMatchingBlocks a b).map (fun t => t.2.2)).sum

/-- `SequenceMatcher.ratio()` with `self.a = a`, `self.b = b`: twice the total
matched-character count of the matching-blocks alignment divided by the sum of
both lengths. -/
def ratioDifflib (a b : List Char) : ℚ :=
  calcRatioQ (matchesTotal a b) (a.length + b.length)

/-- `SequenceMatcher.quick_ratio()`: the multiset intersection count. -/
def quickRatioDifflib (a b : List Char) : ℚ :=
  calcRatioQ ((a.dedup.map (fun c => min (a.count c) (b.count c))).sum)
    (a.length + b.length)

/-- `SequenceMatcher.real_quick_ratio()`. -/
def realQuickRatioDifflib (a b : List Char) : ℚ :=
  calcRatioQ (min a.length b.length) (a.length + b.length)

/-! ### Opcodes and the diff highlighter -/

inductive EditTag where
  | equal
  | replace
  | insert
  | delete
deriving DecidableEq

/-- The loop body of `get_opcodes`. -/
def opcodeLoop : List (Nat × Nat × Nat) → Nat → Nat → List (EditTag × Nat × Nat × Nat × Nat)
  | [], _, _ => []
  | (ai, bj, sz) :: rest, i, j =>
    (if i < ai ∧ j < bj then [(EditTag.replace, i, ai, j, bj)]
     else if i < ai then [(EditTag.delete, i, ai, j, bj)]
     else if j < bj then [(EditTag.insert, i, ai, j, bj)]
     else [])
    ++ (if 1 ≤ sz then [(EditTag.equal, ai, ai + sz, bj, bj + sz)] else [])
    ++ opcodeLoop rest (ai + sz) (bj + sz)

def getOpcodes (a b : List Char) : List (EditTag × Nat × Nat × Nat × Nat) :=
  opcodeLoop (getMatchingBlocks a b) 0 0

/-- The three run styles emitted by `highlight_differences`. -/
inductive RunTag where
  | matched
  | substituted
  | inserted
deriving DecidableEq

/-- `suggestion[j1:j2]`. -/
def sliceB (b : List Char) (j1 j2 : Nat) : List Char := (b.drop j1).take (j2 - j1)

/-- The run (if any) that `highlight_differences` emits for one opcode:
`equal` / `replace` / `insert` runs carry the corresponding slice of the
suggestion; `delete` opcodes contribute nothing. -/
def runOf (b : List Char) (op : EditTag × Nat × Nat × Nat × Nat) :
    Option (RunTag × List Char) :=
  match op.1 with
  | EditTag.equal => some (RunTag.matched, sliceB b op.2.2.2.1 op.2.2.2.2)
  | EditTag.replace => some (RunTag.substituted, sliceB b op.2.2.2.1 op.2.2.2.2)
  | EditTag.insert => some (RunTag.inserted, sliceB b op.2.2.2.1 op.2.2.2.2)
  | EditTag.delete => none

/-- The runs emitted by `highlight_differences`, in order. -/
def highlightRunList (a b : List Char) : List (RunTag × List Char) :=
  (getOpcodes a b).filterMap (runOf b)

/-- Green / red / magenta. -/
def styleOf : RunTag → List Char
  | RunTag.matched => mkSeq ['9', '2']
  | RunTag.substituted => mkSeq ['9', '1']
  | RunTag.inserted => mkSeq ['9', '5']

/-- `highlight_differences(input_word, suggestion)`: each run is wrapped in its
style code and `ANSI_RESET`, concatenated in order. -/
def highlightDifferences (a b : List Char) : List Char :=
  ((highlightRunList a b).map (fun r => styleOf r.1 ++ r.2 ++ mkSeq ['0'])).flatten

/-! ### get_close_matches -/

/-- Python string comparison (codepoint-lexicographic `<=`). -/
def listLe : List Char → List Char → Bool
  | [], _ => true
  | _ :: _, [] => false
  | c :: cs, d :: ds => if c < d then true else if d < c then false else listLe cs ds

/-- The descending order used by `heapq.nlargest(n, [(s.ratio(), x), ...])`:
compare the pair `(ratio, name)` lexicographically, larger first. -/
def candRel (w : List Char) (x y : List Char) : Prop :=
  ratioDifflib y w < ratioDifflib x w ∨
    (ratioDifflib x w = ratioDifflib y w ∧ listLe y x = true)

instance candRelDecidable (w : List Char) : DecidableRel (candRel w) := fun x y => by
  unfold candRel; infer_instance

/-- The filter of `get_close_matches`:
`real_quick_ratio() >= cutoff and quick_ratio() >= cutoff and ratio() >= cutoff`
with `seq2 = word` and `seq1 = x`. -/
def closeEnough (w : List Char) (cutoff : ℚ) (x : List Char) : Bool :=
  decide (cutoff ≤ realQuickRatioDifflib x w) && decide (cutoff ≤ quickRatioDifflib x w)
    && decide (cutoff ≤ ratioDifflib x w)

/-- `difflib.get_close_matches(word, possibilities, n, cutoff)`: filter, then
`heapq.nlargest(n, result)` = descending sort by `(score, name)` and take `n`.
Since distinct names never compare equal, the output is independent of the
iteration order of the candidate set. -/
def getCloseMatches (w : List Char) (possibilities : List (List Char))
    (n : Nat) (cutoff : ℚ) : List (List Char) :=
  (List.insertionSort (candRel w) (possibilities.filter (closeEnough w cutoff))).take n

/-! ### Range bounds for find_longest_match -/

/-- Invariant of the `j2len` dictionary: values are bounded by the number of
processed rows, and a nonzero entry at `j` lies in `[blo, bhi)` with value at
most `j + 1 - blo`. -/
def J2Inv (blo bhi rows : Nat) (f : Nat → Nat) : Prop :=
  ∀ j, f j ≤ rows ∧ (1 ≤ f j → blo ≤ j ∧ j < bhi ∧ f j ≤ j + 1 - blo)

/-- Invariant of the running best match: it is the initial `(alo, blo, 0)`
while no match has been found, and otherwise lies inside the query range. -/
def BestInv (alo ahi blo bhi : Nat) (m : FLMatch) : Prop :=
  (m.size = 0 → m = ⟨alo, blo, 0⟩) ∧
  (1 ≤ m.size → alo ≤ m.i ∧ m.i + m.size ≤ ahi ∧ blo ≤ m.j ∧ m.j + m.size ≤ bhi)

/-! ### The matching blocks form a monotone chain -/

/-- `ChainBlocks l i0 j0 ihi jhi`: the blocks of `l` lie, in list order, in
strictly advancing position in both coordinates, starting at or after
`(i0, j0)` and ending at or before `(ihi, jhi)`; every block is nonempty. -/
def ChainBlocks : List (Nat × Nat × Nat) → Nat → Nat → Nat → Nat → Prop
  | [], i0, j0, ihi, jhi => i0 ≤ ihi ∧ j0 ≤ jhi
  | (ai, bj, k) :: rest, i0, j0, ihi, jhi =>
    i0 ≤ ai ∧ j0 ≤ bj ∧ 1 ≤ k ∧ ChainBlocks rest (ai + k) (bj + k) ihi jhi

/-! ### The DP table of the full-range find_longest_match call

For the top-level call `(0, len a, 0, len b)`, the `j2len` dictionary after
processing rows `0 .. r` is exactly the longest-common-suffix table `ddp`. -/

def ddp (a b : List Char) : Nat → Nat → Nat
  | 0, j => if j ∈ rowIndices a b 0 b.length 0 then 1 else 0
  | i + 1, 0 => if 0 ∈ rowIndices a b 0 b.length (i + 1) then 1 else 0
  | i + 1, j + 1 =>
    if j + 1 ∈ rowIndices a b 0 b.length (i + 1) then ddp a b i j + 1 else 0

/-- The state of the full-range outer loop after `r` rows. -/
def outerState (a b : List Char) (r : Nat) : (Nat → Nat) × FLMatch :=
  outerLoop a b 0 b.length (List.range' 0 r) (fun _ => 0, ⟨0, 0, 0⟩)

/-! ## The witch function (src/main.py `witch`)

The exact resolver (`shutil.which`), the environment variable and the
directory listing are OS effects outside the repository; they enter the model
as oracles in a `WEnv` record, and `witch` becomes a pure function from the
environment to the list of printed strings and the return value.  A raised
`os.listdir` exception is `Except.error`. -/

/-- Python's `s.split(os.pathsep)` on POSIX (`:`): the result is never empty
and empty segments are preserved; `"".split(":") == [""]`. -/
def splitColonList : List Char → List (List Char)
  | [] => [[]]
  | c :: rest =>
    if c = ':' then [] :: splitColonList rest
    else
      match splitColonList rest with
      | h :: t => (c :: h) :: t
      | [] => [[c]]

def splitColon (s : String) : List String :=
  (splitColonList s.data).map (fun l => String.mk l)

/-- The effect environment of one `witch` invocation. -/
structure WEnv where
  which : String → Option String
  pathVar : Option String
  isdir : String → Bool
  listdir : String → Except Unit (List String)
  hasExecEntry : String → String → Bool

/-- Python truthiness of the resolver's result (`if path:`). -/
def truthyStr : Option String → Bool
  | none => false
  | some s => !(s == "")

/-- The comprehension `{f for p in paths if os.path.isdir(p) for f in os.listdir(p)}`:
collect the entries of directories passing `isdir`; an `os.listdir` exception
propagates uncaught. -/
def collectExecs (env : WEnv) : List String → Except Unit (List String)
  | [] => Except.ok []
  | p :: ps =>
    if env.isdir p then
      match env.listdir p with
      | Except.ok fs =>
        match collectExecs env ps with
        | Except.ok rest => Except.ok (fs ++ rest)
        | Except.error e => Except.error e
      | Except.error e => Except.error e
    else collectExecs env ps

/-- The Candidate Enumerator: split `os.environ.get("PATH", "")` on the path
separator and build the deduplicated name set. -/
def enumerateExecs (env : WEnv) : Except Unit (List String) :=
  match collectExecs env (splitColon (env.pathVar.getD "")) with
  | Except.ok l => Except.ok l.dedup
  | Except.error e => Except.error e

/-- `os.listdir` result with a failed listing reading as no entries (used
only to state which names the enumerator returns when nothing fails). -/
def okListdir (env : WEnv) (d : String) : List String :=
  match env.listdir d with
  | Except.ok l => l
  | Except.error _ => []

/-- String-level `get_close_matches(command, executables, n=5, cutoff=0.4)`. -/
def getCloseMatchesS (word : String) (cands : List String) : List String :=
  (getCloseMatches word.data (cands.map String.data) 5 (mkRat 2 5)).map
    (fun l => String.mk l)

/-- `shutil.which(match) or "(not found in PATH)"` (Python `or` truthiness). -/
def locLine (env : WEnv) (m : String) : String :=
  match env.which m with
  | some p => if p == "" then "(not found in PATH)" else p
  | none => "(not found in PATH)"

def padStringS (s : String) (w : Nat) : String := String.mk (padString s.data w)

def highlightS (cmd m : String) : String :=
  String.mk (highlightDifferences cmd.data m.data)

def headerLine : String :=
  padStringS "Suggested Command" 20 ++ " | " ++ padStringS "Location" 50

/-- `"-" * (cmd_width + path_width + 3)` = 73 dashes. -/
def dashLine : String := String.mk (List.replicate 73 '-')

def rowLine (env : WEnv) (cmd m : String) : String :=
  padStringS (highlightS cmd m) 20 ++ " | " ++ padStringS (locLine env m) 50

/-- `witch(command)`: the sequence of `print` arguments and the return value. -/
def witchModel (env : WEnv) (command : String) :
    Except Unit (List String × Option String) :=
  if truthyStr (env.which command) then
    Except.ok ([(env.which command).getD ""], env.which command)
  else
    match enumerateExecs env with
    | Except.error e => Except.error e
    | Except.ok execs =>
      match getCloseMatchesS command execs with
      | [] => Except.ok (["Command not found and no close matches."], none)
      | m :: ms =>
        Except.ok (["\nCommand not found. Did you mean:\n", headerLine, dashLine]
          ++ ((m :: ms).map (rowLine env command)), none)

/-- Modelled from the spec: the exact lookup.  `shutil.which` is standard
library, not part of this repository; per the spec's glossary it resolves a
command "by checking each search-path directory in order for an executable
entry with that exact name", and per §6 "a missing variable is treated as an
empty list of directories". -/
def specDirs : Option String → List String
  | none => []
  | some s => splitColon s

def whichSpec (env : WEnv) (cmd : String) : Option String :=
  match (specDirs env.pathVar).find? (fun d => env.hasExecEntry d cmd) with
  | some d => some (d ++ "/" ++ cmd)
  | none => none

/-- Concrete environment in which the exact lookup succeeds. -/
def envExact : WEnv where
  which := fun c => if c == "ls" then some "/bin/ls" else none
  pathVar := none
  isdir := fun _ => false
  listdir := fun _ => Except.ok []
  hasExecEntry := fun _ _ => false

/-- Concrete environment with the search-path variable unset. -/
def envEmpty : WEnv where
  which := fun _ => none
  pathVar := none
  isdir := fun _ => false
  listdir := fun _ => Except.ok []
  hasExecEntry := fun _ _ => false

/-- Concrete environment with a directory that passes `os.path.isdir` but
whose `os.listdir` raises (permission denied). -/
def envPerm : WEnv where
  which := fun _ => none
  pathVar := some "/secret"
  isdir := fun d => d == "/secret"
  listdir := fun _ => Except.error ()
  hasExecEntry := fun _ _ => false

/-- Concrete environment whose directories all list successfully. -/
def envOk : WEnv where
  which := fun _ => none
  pathVar := some "/bin:/sbin"
  isdir := fun _ => true
  listdir := fun d => if d == "/bin" then Except.ok ["ls", "cat"] else Except.ok ["ls"]
  hasExecEntry := fun _ _ => false

theorem eatSeq_length : ∀ l r, eatSeq l = some r → r.length < l.length := by
  intro l
  induction l with
  | nil => intro r h; simp [eatSeq] at h
  | cons c rest ih =>
    intro r h
    simp only [eatSeq] at h
    by_cases hm : c = 'm'
    · simp [hm] at h; simp [← h, List.length_cons]
    · by_cases hs : seqChar c
      · simp [hm, hs] at h
        have := ih r h
        simp [List.length_cons]; omega
      · simp [hm, hs] at h

theorem tryMatch_length : ∀ l r, tryMatch l = some r → r.length < l.length := by
  intro l r h
  cases l with
  | nil => simp [tryMatch] at h
  | cons c rest =>
    simp only [tryMatch] at h
    by_cases hc : c = '['
    · simp [hc] at h
      have := eatSeq_length rest r h
      simp [List.length_cons]; omega
    · simp [hc] at h

theorem stripGo_fuel : ∀ f1 f2 l, l.length ≤ f1 → l.length ≤ f2 →
    stripGo f1 l = stripGo f2 l := by
  intro f1
  induction f1 with
  | zero =>
    intro f2 l h1 _
    have : l = [] := List.length_eq_zero.mp (Nat.le_zero.mp h1)
    subst this
    cases f2 <;> simp [stripGo]
  | succ f ih =>
    intro f2 l h1 h2
    cases l with
    | nil => cases f2 <;> simp [stripGo]
    | cons c rest =>
      cases f2 with
      | zero => simp [List.length_cons] at h2
      | succ g =>
        simp only [stripGo]
        by_cases hc : c = '\x1b'
        · simp only [hc, if_pos rfl]
          cases htm : tryMatch rest with
          | some rest2 =>
            have hl := tryMatch_length rest rest2 htm
            simp only [List.length_cons] at h1 h2
            exact ih g rest2 (by omega) (by omega)
          | none =>
            simp only [List.length_cons] at h1 h2
            rw [ih g rest (by omega) (by omega)]
        · simp only [hc, if_false]
          simp only [List.length_cons] at h1 h2
          rw [ih g rest (by omega) (by omega)]

theorem stripAnsi_nil : stripAnsi [] = [] := rfl

theorem stripAnsi_cons_esc_some {rest rest2 : List Char}
    (h : tryMatch rest = some rest2) :
    stripAnsi ('\x1b' :: rest) = stripAnsi rest2 := by
  show stripGo (rest.length + 1) ('\x1b' :: rest) = stripAnsi rest2
  simp only [stripGo, if_pos rfl, h]
  exact stripGo_fuel rest.length rest2.length rest2
    (Nat.le_of_lt (tryMatch_length rest rest2 h)) le_rfl

theorem stripAnsi_cons_esc_none {rest : List Char}
    (h : tryMatch rest = none) :
    stripAnsi ('\x1b' :: rest) = '\x1b' :: stripAnsi rest := by
  show stripGo (rest.length + 1) ('\x1b' :: rest) = '\x1b' :: stripAnsi rest
  simp only [stripGo, if_pos rfl, h]
  simp [stripAnsi]

theorem stripAnsi_cons_other {c : Char} (hc : c ≠ '\x1b') (rest : List Char) :
    stripAnsi (c :: rest) = c :: stripAnsi rest := by
  show stripGo (rest.length + 1) (c :: rest) = c :: stripAnsi rest
  simp only [stripGo, hc, if_false]
  rfl

theorem hasSeq_cons (c : Char) (rest : List Char) :
    hasSeq (c :: rest) = (((c == '\x1b') && (tryMatch rest).isSome) || hasSeq rest) := rfl

/-- A string the scanner finds no match in is returned unchanged. -/
theorem stripAnsi_of_hasSeq_false : ∀ p, hasSeq p = false → stripAnsi p = p := by
  intro p
  induction p with
  | nil => intro _; rfl
  | cons c rest ih =>
    intro h
    rw [hasSeq_cons] at h
    simp only [Bool.or_eq_false_iff, Bool.and_eq_false_iff] at h
    obtain ⟨h1, h2⟩ := h
    by_cases hc : c = '\x1b'
    · subst hc
      rcases h1 with h1 | h1
      · simp at h1
      · have hnone : tryMatch rest = none := by
          cases htm : tryMatch rest with
          | none => rfl
          | some r => rw [htm] at h1; simp at h1
        rw [stripAnsi_cons_esc_none hnone, ih h2]
    · rw [stripAnsi_cons_other hc, ih h2]

theorem eatSeq_mk : ∀ ds rest, (∀ c ∈ ds, seqChar c = true) →
    eatSeq (ds ++ 'm' :: rest) = some rest := by
  intro ds
  induction ds with
  | nil =>
    intro rest _
    simp [eatSeq]
  | cons d ds ih =>
    intro rest h
    have hd : seqChar d = true := h d (by simp)
    have hdm : d ≠ 'm' := by
      intro he; subst he
      simp [seqChar, Char.isDigit] at hd
    simp only [List.cons_append, eatSeq, hdm, if_false, hd, if_true]
    exact ih rest (fun c hc => h c (by simp [hc]))

theorem tryMatch_mk (ds rest : List Char) (h : ∀ c ∈ ds, seqChar c = true) :
    tryMatch ('[' :: (ds ++ 'm' :: rest)) = some rest := by
  simp only [tryMatch, if_pos rfl]
  exact eatSeq_mk ds rest h

/-- If `eatSeq` fails on `q`, it still fails after appending anything that
starts with ESC (ESC is neither `m` nor a class character). -/
theorem eatSeq_append_esc : ∀ q z, eatSeq q = none →
    eatSeq (q ++ '\x1b' :: z) = none := by
  intro q
  induction q with
  | nil =>
    intro z _
    simp [eatSeq, seqChar, Char.isDigit]
  | cons c q ih =>
    intro z h
    simp only [eatSeq] at h ⊢
    by_cases hm : c = 'm'
    · simp [hm] at h
    · by_cases hs : seqChar c
      · simp [hm, hs] at h ⊢
        exact ih z h
      · simp [hm, hs]

theorem tryMatch_append_esc (p z : List Char) (h : tryMatch p = none) :
    tryMatch (p ++ '\x1b' :: z) = none := by
  cases p with
  | nil =>
    simp [tryMatch, show ¬('\x1b' = '[') from by decide]
  | cons c q =>
    simp only [tryMatch] at h ⊢
    by_cases hc : c = '['
    · simp [hc] at h ⊢
      exact eatSeq_append_esc q z h
    · simp [hc]

/-- Key compositional fact: a clean plain part followed by a complete sequence
strips to the plain part, and scanning continues after the sequence. -/
theorem stripAnsi_plain_seq : ∀ p ds r, hasSeq p = false →
    (∀ c ∈ ds, seqChar c = true) →
    stripAnsi (p ++ mkSeq ds ++ r) = p ++ stripAnsi r := by
  intro p
  induction p with
  | nil =>
    intro ds r _ hds
    have he : mkSeq ds ++ r = '\x1b' :: ('[' :: (ds ++ 'm' :: r)) := by
      simp [mkSeq]
    rw [List.nil_append, he,
      stripAnsi_cons_esc_some (tryMatch_mk ds r hds), List.nil_append]
  | cons c p ih =>
    intro ds r h hds
    rw [hasSeq_cons] at h
    simp only [Bool.or_eq_false_iff, Bool.and_eq_false_iff] at h
    obtain ⟨h1, h2⟩ := h
    by_cases hc : c = '\x1b'
    · subst hc
      have hnone : tryMatch p = none := by
        rcases h1 with h1 | h1
        · simp at h1
        · cases htm : tryMatch p with
          | none => rfl
          | some x => rw [htm] at h1; simp at h1
      have hnone2 : tryMatch (p ++ mkSeq ds ++ r) = none := by
        have he : p ++ mkSeq ds ++ r = p ++ '\x1b' :: ('[' :: (ds ++ 'm' :: r)) := by
          simp [mkSeq]
        rw [he]
        exact tryMatch_append_esc p _ hnone
      calc stripAnsi (('\x1b' :: p) ++ mkSeq ds ++ r)
          = stripAnsi ('\x1b' :: (p ++ mkSeq ds ++ r)) := by simp
        _ = '\x1b' :: stripAnsi (p ++ mkSeq ds ++ r) := stripAnsi_cons_esc_none hnone2
        _ = '\x1b' :: (p ++ stripAnsi r) := by rw [ih ds r h2 hds]
        _ = ('\x1b' :: p) ++ stripAnsi r := by simp
    · calc stripAnsi ((c :: p) ++ mkSeq ds ++ r)
          = stripAnsi (c :: (p ++ mkSeq ds ++ r)) := by simp
        _ = c :: stripAnsi (p ++ mkSeq ds ++ r) := stripAnsi_cons_other hc _
        _ = c :: (p ++ stripAnsi r) := by rw [ih ds r h2 hds]
        _ = (c :: p) ++ stripAnsi r := by simp

theorem eatSeq_some_decomp : ∀ q r, eatSeq q = some r →
    ∃ ds, (∀ c ∈ ds, seqChar c = true) ∧ q = ds ++ 'm' :: r := by
  intro q
  induction q with
  | nil => intro r h; simp [eatSeq] at h
  | cons c q ih =>
    intro r h
    simp only [eatSeq] at h
    by_cases hm : c = 'm'
    · simp [hm] at h
      exact ⟨[], by simp, by simp [hm, h]⟩
    · by_cases hs : seqChar c
      · simp [hm, hs] at h
        obtain ⟨ds, hds, hq⟩ := ih r h
        exact ⟨c :: ds, by
          intro x hx
          rcases List.mem_cons.mp hx with hx | hx
          · subst hx; exact hs
          · exact hds x hx, by simp [hq]⟩
      · simp [hm, hs] at h

theorem tryMatch_some_decomp (p r : List Char) (h : tryMatch p = some r) :
    ∃ ds, (∀ c ∈ ds, seqChar c = true) ∧ p = '[' :: (ds ++ 'm' :: r) := by
  cases p with
  | nil => simp [tryMatch] at h
  | cons c q =>
    simp only [tryMatch] at h
    by_cases hc : c = '['
    · simp [hc] at h
      obtain ⟨ds, hds, hq⟩ := eatSeq_some_decomp q r h
      exact ⟨ds, hds, by simp [hc, hq]⟩
    · simp [hc] at h

theorem hasSeq_sound : ∀ s, hasSeq s = true → containsSeqSpec s := by
  intro s
  induction s with
  | nil => intro h; simp [hasSeq] at h
  | cons c rest ih =>
    intro h
    rw [hasSeq_cons] at h
    rcases Bool.or_eq_true_iff.mp h with h | h
    · rcases Bool.and_eq_true_iff.mp h with ⟨hc, hsome⟩
      have hc2 : c = '\x1b' := by exact beq_iff_eq.mp hc
      cases htm : tryMatch rest with
      | none => rw [htm] at hsome; simp at hsome
      | some r =>
        obtain ⟨ds, hds, hrest⟩ := tryMatch_some_decomp rest r htm
        exact ⟨[], ds, r, hds, by simp [hc2, hrest, mkSeq]⟩
    · obtain ⟨u, ds, v, hds, hrest⟩ := ih h
      exact ⟨c :: u, ds, v, hds, by simp [hrest]⟩

theorem hasSeq_complete : ∀ s, containsSeqSpec s → hasSeq s = true := by
  intro s ⟨u, ds, v, hds, hs⟩
  subst hs
  induction u with
  | nil =>
    have he : ([] : List Char) ++ mkSeq ds ++ v = '\x1b' :: ('[' :: (ds ++ 'm' :: v)) := by
      simp [mkSeq]
    rw [he, hasSeq_cons, tryMatch_mk ds v hds]
    simp
  | cons c u ih =>
    have he : (c :: u) ++ mkSeq ds ++ v = c :: (u ++ mkSeq ds ++ v) := by simp
    rw [he, hasSeq_cons, ih]
    simp

/-- A contiguous segment of a sequence-free string is sequence-free. -/
theorem hasSeq_false_of_sub {s t u v : List Char} (h : hasSeq s = false)
    (hdecomp : s = u ++ t ++ v) : hasSeq t = false := by
  by_contra hne
  have ht : hasSeq t = true := by
    cases hxs : hasSeq t with
    | false => exact absurd hxs hne
    | true => rfl
  obtain ⟨x, ds, y, hds, hxt⟩ := hasSeq_sound t ht
  have : containsSeqSpec s := ⟨u ++ x, ds, y ++ v, hds, by simp [hdecomp, hxt]⟩
  rw [hasSeq_complete s this] at h
  simp at h

theorem hasSeq_of_no_esc : ∀ p, (∀ c ∈ p, c ≠ '\x1b') → hasSeq p = false := by
  intro p
  induction p with
  | nil => intro _; rfl
  | cons c rest ih =>
    intro h
    rw [hasSeq_cons]
    have hc : (c == '\x1b') = false := by
      have := h c (by simp)
      simp [this]
    rw [hc, ih (fun x hx => h x (by simp [hx]))]
    simp

/-! ### Appending plain spaces commutes with stripping -/

theorem eatSeq_none_append_space : ∀ q k, eatSeq q = none →
    eatSeq (q ++ List.replicate k ' ') = none := by
  intro q
  induction q with
  | nil =>
    intro k _
    cases k with
    | zero => simp [eatSeq]
    | succ n => simp [List.replicate, eatSeq, seqChar, Char.isDigit]
  | cons c q ih =>
    intro k h
    simp only [eatSeq] at h ⊢
    by_cases hm : c = 'm'
    · simp [hm] at h
    · by_cases hs : seqChar c
      · simp [hm, hs] at h ⊢
        exact ih k h
      · simp [hm, hs]

theorem tryMatch_none_append_space (p : List Char) (k : Nat)
    (h : tryMatch p = none) :
    tryMatch (p ++ List.replicate k ' ') = none := by
  cases p with
  | nil =>
    cases k with
    | zero => simp [tryMatch]
    | succ n => simp [List.replicate, tryMatch]
  | cons c q =>
    simp only [tryMatch] at h ⊢
    by_cases hc : c = '['
    · simp [hc] at h ⊢
      exact eatSeq_none_append_space q k h
    · simp [hc]

theorem tryMatch_some_append (p r z : List Char) (h : tryMatch p = some r) :
    tryMatch (p ++ z) = some (r ++ z) := by
  obtain ⟨ds, hds, hp⟩ := tryMatch_some_decomp p r h
  have he : p ++ z = '[' :: (ds ++ 'm' :: (r ++ z)) := by simp [hp]
  rw [he]
  exact tryMatch_mk ds (r ++ z) hds

theorem stripAnsi_append_spaces : ∀ s k,
    stripAnsi (s ++ List.replicate k ' ') = stripAnsi s ++ List.replicate k ' ' := by
  have main : ∀ n s k, s.length ≤ n →
      stripAnsi (s ++ List.replicate k ' ') = stripAnsi s ++ List.replicate k ' ' := by
    intro n
    induction n with
    | zero =>
      intro s k h
      have : s = [] := List.length_eq_zero.mp (Nat.le_zero.mp h)
      subst this
      simp only [List.nil_append, stripAnsi_nil]
      exact stripAnsi_of_hasSeq_false _ (hasSeq_of_no_esc _ (by
        intro c hc
        have := List.eq_of_mem_replicate hc
        simp [this]))
    | succ n ih =>
      intro s k h
      cases s with
      | nil =>
        simp only [List.nil_append, stripAnsi_nil]
        exact stripAnsi_of_hasSeq_false _ (hasSeq_of_no_esc _ (by
          intro c hc
          have := List.eq_of_mem_replicate hc
          simp [this]))
      | cons c rest =>
        simp only [List.length_cons] at h
        by_cases hc : c = '\x1b'
        · subst hc
          cases htm : tryMatch rest with
          | some r2 =>
            have h1 : stripAnsi (('\x1b' :: rest) ++ List.replicate k ' ')
                = stripAnsi (r2 ++ List.replicate k ' ') := by
              have he : ('\x1b' :: rest) ++ List.replicate k ' '
                  = '\x1b' :: (rest ++ List.replicate k ' ') := by simp
              rw [he, stripAnsi_cons_esc_some (tryMatch_some_append rest r2 _ htm)]
            have hlen := tryMatch_length rest r2 htm
            rw [h1, ih r2 k (by omega), stripAnsi_cons_esc_some htm]
          | none =>
            have he : ('\x1b' :: rest) ++ List.replicate k ' '
                = '\x1b' :: (rest ++ List.replicate k ' ') := by simp
            rw [he, stripAnsi_cons_esc_none (tryMatch_none_append_space rest k htm),
              ih rest k (by omega), stripAnsi_cons_esc_none htm]
            simp
        · have he : (c :: rest) ++ List.replicate k ' '
              = c :: (rest ++ List.replicate k ' ') := by simp
          rw [he, stripAnsi_cons_other hc, ih rest k (by omega),
            stripAnsi_cons_other hc]
          simp
  intro s k
  exact main s.length s k le_rfl

theorem wcswidthM_append (a b : List Char) :
    wcswidthM (a ++ b) = wcswidthM a + wcswidthM b := by
  simp [wcswidthM, List.map_append, List.sum_append]

theorem charWidthM_space : charWidthM ' ' = 1 := by decide

theorem wcswidthM_replicate_space (k : Nat) :
    wcswidthM (List.replicate k ' ') = k := by
  simp [wcswidthM, List.map_replicate, charWidthM_space, List.sum_replicate]

theorem visibleWidth_pad (s : List Char) (k : Nat) :
    visibleWidth (s ++ List.replicate k ' ') = visibleWidth s + k := by
  unfold visibleWidth
  rw [stripAnsi_append_spaces, wcswidthM_append, wcswidthM_replicate_space]

/-- C5: for every string `s` and width `w` at least the visible width of `s`,
`pad_string(s, w)` has visible width exactly `w`; if the visible width of `s`
exceeds `w`, no spaces are added (no truncation, no error: the string is
returned unchanged). -/
theorem claimC5 (s : List Char) (w : Nat) :
    (visibleWidth s ≤ w → visibleWidth (padString s w) = w) ∧
    (w < visibleWidth s → padString s w = s) := by
  constructor
  · intro h
    unfold padString
    rw [visibleWidth_pad]
    omega
  · intro h
    unfold padString
    rw [Nat.sub_eq_zero_of_le (le_of_lt h)]
    simp

/-- Witness for C5 at concrete inputs: padding `"ab"` to width 10 yields
visible width 10, and a width smaller than the visible width adds nothing. -/
theorem claimC5_witness :
    visibleWidth (padString ['a', 'b'] 10) = 10 ∧ padString ['a', 'b', 'c'] 2 = ['a', 'b', 'c'] :=
  ⟨(claimC5 ['a', 'b'] 10).1 (by decide), (claimC5 ['a', 'b', 'c'] 2).2 (by decide)⟩

/-- C6: `strip_ansi` removes every embedded color-control sequence of the form
ESC `[` digits/semicolons `m` and leaves every other character unchanged and
in order: on any string decomposed into plain parts (containing no complete
sequence) interleaved with such sequences, it returns exactly the plain parts
concatenated in order.  The function is total by construction. -/
theorem claimC6 (pieces : List (List Char × List Char)) (tl : List Char)
    (hp : ∀ pc ∈ pieces, hasSeq pc.1 = false ∧ (∀ c ∈ pc.2, seqChar c = true))
    (ht : hasSeq tl = false) :
    stripAnsi (interleave pieces tl) = (pieces.map Prod.fst).flatten ++ tl := by
  induction pieces with
  | nil =>
    simp only [interleave, List.map_nil, List.flatten_nil, List.nil_append]
    exact stripAnsi_of_hasSeq_false tl ht
  | cons pc rest ih =>
    have h1 := hp pc (by simp)
    have he : interleave (pc :: rest) tl = pc.1 ++ mkSeq pc.2 ++ interleave rest tl := rfl
    rw [he, stripAnsi_plain_seq pc.1 pc.2 _ h1.1 h1.2,
      ih (fun x hx => hp x (by simp [hx]))]
    simp

/-- Witness for C6 at a concrete input: stripping
`"ab" ++ "\x1b[92m" ++ "c√" ++ "\x1b[0m" ++ "d"` yields `"abc√d"`. -/
theorem claimC6_witness :
    stripAnsi (interleave [(['a', 'b'], ['9', '2']), (['c', '√'], ['0'])] ['d'])
      = ['a', 'b', 'c', '√', 'd'] := by
  have h := claimC6 [(['a', 'b'], ['9', '2']), (['c', '√'], ['0'])] ['d']
    (by decide) (by decide)
  simpa using h

/-- `calcRatioQ` is the exact value of `2.0 * matches / length`. -/
theorem calcRatioQ_eq_div (mtot len : Nat) :
    calcRatioQ mtot len = if 1 ≤ len then 2 * (mtot : ℚ) / (len : ℚ) else 1 := by
  unfold calcRatioQ
  by_cases h : 1 ≤ len
  · simp only [h, if_true, Rat.mkRat_eq_div]
    push_cast
    ring
  · simp [h]

theorem mem_rowIndices {a b : List Char} {blo bhi i j : Nat}
    (h : j ∈ rowIndices a b blo bhi i) : blo ≤ j ∧ j < bhi := by
  unfold rowIndices at h
  cases ha : a[i]? with
  | none => rw [ha] at h; simp at h
  | some c =>
    rw [ha] at h
    have := (List.mem_filter.mp h).2
    simp only [Bool.and_eq_true, decide_eq_true_eq] at this
    exact this

theorem dpK_pos (j2old : Nat → Nat) (j : Nat) : 1 ≤ dpK j2old j := by
  unfold dpK
  by_cases h : j = 0 <;> simp [h]

theorem innerLoop_inv (alo ahi blo bhi i rows : Nat) (j2old : Nat → Nat)
    (hold : J2Inv blo bhi rows j2old) (hi1 : alo + rows ≤ i) (hi2 : i < ahi) :
    ∀ js (j2new : Nat → Nat) (best : FLMatch), (∀ j ∈ js, blo ≤ j ∧ j < bhi) →
      J2Inv blo bhi (rows + 1) j2new → BestInv alo ahi blo bhi best →
      J2Inv blo bhi (rows + 1) (innerLoop j2old i js j2new best).1 ∧
        BestInv alo ahi blo bhi (innerLoop j2old i js j2new best).2 := by
  intro js
  induction js with
  | nil => intro j2new best _ h2 h3; exact ⟨h2, h3⟩
  | cons j js ih =>
    intro j2new best hmem h2 h3
    have hj := hmem j (by simp)
    have hk1 := dpK_pos j2old j
    have hk2 : dpK j2old j ≤ rows + 1 := by
      by_cases hj0 : j = 0
      · have hd : dpK j2old j = 1 := by simp [dpK, hj0]
        omega
      · have hd : dpK j2old j = j2old (j - 1) + 1 := by simp [dpK, hj0]
        have := (hold (j - 1)).1
        omega
    have hk3 : dpK j2old j ≤ j + 1 - blo := by
      by_cases hj0 : j = 0
      · have hd : dpK j2old j = 1 := by simp [dpK, hj0]
        omega
      · have hd : dpK j2old j = j2old (j - 1) + 1 := by simp [dpK, hj0]
        by_cases hz : 1 ≤ j2old (j - 1)
        · have := (hold (j - 1)).2 hz
          omega
        · omega
    have step : J2Inv blo bhi (rows + 1) (updFn j2new j (dpK j2old j)) ∧
        BestInv alo ahi blo bhi (bestUpd i j (dpK j2old j) best) := by
      constructor
      · intro x
        unfold updFn
        by_cases hx : x = j
        · simp only [hx, if_pos rfl]
          exact ⟨hk2, fun _ => ⟨hj.1, hj.2, hk3⟩⟩
        · simp only [hx, if_false]
          exact h2 x
      · unfold bestUpd
        by_cases hlt : best.size < dpK j2old j
        · rw [if_pos hlt]
          constructor
          · intro h0
            have h0' : dpK j2old j = 0 := h0
            omega
          · intro _
            show alo ≤ i + 1 - dpK j2old j ∧
              i + 1 - dpK j2old j + dpK j2old j ≤ ahi ∧
              blo ≤ j + 1 - dpK j2old j ∧
              j + 1 - dpK j2old j + dpK j2old j ≤ bhi
            omega
        · rw [if_neg hlt]
          exact h3
    exact ih _ _ (fun x hx => hmem x (by simp [hx])) step.1 step.2

theorem outerLoop_inv (a b : List Char) (alo ahi blo bhi : Nat) :
    ∀ (m s rows : Nat) (st : (Nat → Nat) × FLMatch), alo + rows = s → s + m ≤ ahi →
      J2Inv blo bhi rows st.1 → BestInv alo ahi blo bhi st.2 →
      BestInv alo ahi blo bhi (outerLoop a b blo bhi (List.range' s m) st).2 := by
  intro m
  induction m with
  | zero =>
    intro s rows st _ _ _ h4
    simpa [outerLoop] using h4
  | succ m ih =>
    intro s rows st h1 h2 h3 h4
    rw [List.range'_succ]
    show BestInv alo ahi blo bhi
      (outerLoop a b blo bhi (List.range' (s + 1) m)
        (innerLoop st.1 s (rowIndices a b blo bhi s) (fun _ => 0) st.2)).2
    have hia : alo + rows ≤ s := by omega
    have hib : s < ahi := by omega
    have hinner := innerLoop_inv alo ahi blo bhi s rows st.1 h3 hia hib
      (rowIndices a b blo bhi s) (fun _ => 0) st.2
      (fun x hx => mem_rowIndices hx)
      (fun x => by constructor <;> simp)
      h4
    have h1' : alo + (rows + 1) = s + 1 := by omega
    have h2' : s + 1 + m ≤ ahi := by omega
    exact ih (s + 1) (rows + 1)
      (innerLoop st.1 s (rowIndices a b blo bhi s) (fun _ => 0) st.2)
      h1' h2' hinner.1 hinner.2

theorem extendBack_inv (a b : List Char) {alo ahi blo bhi : Nat} :
    ∀ bi bj sz, BestInv alo ahi blo bhi ⟨bi, bj, sz⟩ →
      BestInv alo ahi blo bhi (extendBack a b alo blo bi bj sz) := by
  intro bi
  induction bi with
  | zero => intro bj sz h; exact h
  | succ bi ih =>
    intro bj sz h
    show BestInv alo ahi blo bhi
      (if alo < bi + 1 && blo < bj && sameAt a b bi (bj - 1) then
        extendBack a b alo blo bi (bj - 1) (sz + 1)
      else ⟨bi + 1, bj, sz⟩)
    by_cases hg : (alo < bi + 1 && blo < bj && sameAt a b bi (bj - 1)) = true
    · rw [if_pos hg]
      simp only [Bool.and_eq_true, decide_eq_true_eq] at hg
      obtain ⟨⟨hg1, hg2⟩, _⟩ := hg
      apply ih
      constructor
      · intro h0
        have h0' : sz + 1 = 0 := h0
        exact absurd h0' (by omega)
      · intro _
        show alo ≤ bi ∧ bi + (sz + 1) ≤ ahi ∧ blo ≤ bj - 1 ∧ bj - 1 + (sz + 1) ≤ bhi
        by_cases hsz : sz = 0
        · have heq := h.1 (by simpa using hsz)
          have hbi : bi + 1 = alo := congrArg FLMatch.i heq
          omega
        · have hf := h.2 (show 1 ≤ sz by omega)
          have hf1 : alo ≤ bi + 1 := hf.1
          have hf2 : bi + 1 + sz ≤ ahi := hf.2.1
          have hf3 : blo ≤ bj := hf.2.2.1
          have hf4 : bj + sz ≤ bhi := hf.2.2.2
          omega
    · rw [if_neg hg]
      exact h

theorem extFwdGo_inv (a b : List Char) {alo ahi blo bhi : Nat} :
    ∀ fuel bi bj sz, BestInv alo ahi blo bhi ⟨bi, bj, sz⟩ →
      BestInv alo ahi blo bhi (extFwdGo a b ahi bhi fuel bi bj sz) := by
  intro fuel
  induction fuel with
  | zero => intro bi bj sz h; exact h
  | succ fuel ih =>
    intro bi bj sz h
    show BestInv alo ahi blo bhi
      (if bi + sz < ahi && bj + sz < bhi && sameAt a b (bi + sz) (bj + sz) then
        extFwdGo a b ahi bhi fuel bi bj (sz + 1)
      else ⟨bi, bj, sz⟩)
    by_cases hg : (bi + sz < ahi && bj + sz < bhi && sameAt a b (bi + sz) (bj + sz)) = true
    · rw [if_pos hg]
      simp only [Bool.and_eq_true, decide_eq_true_eq] at hg
      obtain ⟨⟨hg1, hg2⟩, _⟩ := hg
      apply ih
      constructor
      · intro h0
        have h0' : sz + 1 = 0 := h0
        exact absurd h0' (by omega)
      · intro _
        show alo ≤ bi ∧ bi + (sz + 1) ≤ ahi ∧ blo ≤ bj ∧ bj + (sz + 1) ≤ bhi
        by_cases hsz : sz = 0
        · have heq := h.1 (by simpa using hsz)
          have hbi : bi = alo := congrArg FLMatch.i heq
          have hbj : bj = blo := congrArg FLMatch.j heq
          omega
        · have hf := h.2 (show 1 ≤ sz by omega)
          have hf1 : alo ≤ bi := hf.1
          have hf2 : bi + sz ≤ ahi := hf.2.1
          have hf3 : blo ≤ bj := hf.2.2.1
          have hf4 : bj + sz ≤ bhi := hf.2.2.2
          omega
    · rw [if_neg hg]
      exact h

theorem findLongestMatch_inv (a b : List Char) (alo ahi blo bhi : Nat) :
    BestInv alo ahi blo bhi (findLongestMatch a b alo ahi blo bhi) := by
  have h0 : J2Inv blo bhi 0 (fun _ => 0) := fun j => by constructor <;> simp
  have hb0 : BestInv alo ahi blo bhi ⟨alo, blo, 0⟩ :=
    ⟨fun _ => rfl, fun h => absurd h (by simp)⟩
  have hst : BestInv alo ahi blo bhi
      (outerLoop a b blo bhi (List.range' alo (ahi - alo))
        (fun _ => 0, ⟨alo, blo, 0⟩)).2 := by
    by_cases hc : alo ≤ ahi
    · exact outerLoop_inv a b alo ahi blo bhi (ahi - alo) alo 0
        (fun _ => 0, ⟨alo, blo, 0⟩) (by omega) (by omega) h0 hb0
    · have hz : ahi - alo = 0 := by omega
      rw [hz]
      simpa [outerLoop] using hb0
  unfold findLongestMatch extendFwd
  exact extFwdGo_inv a b _ _ _ _ (extendBack_inv a b _ _ _ hst)

theorem flm_size_zero_of_le (a b : List Char) (alo ahi blo bhi : Nat) (h : ahi ≤ alo) :
    (findLongestMatch a b alo ahi blo bhi).size = 0 := by
  by_contra hne
  have := (findLongestMatch_inv a b alo ahi blo bhi).2 (by omega)
  omega

/-! ### Fuel adequacy for the block recursion -/

theorem mbGo_fuel (a b : List Char) : ∀ f1 f2 alo ahi blo bhi, ahi - alo ≤ f1 →
    ahi - alo ≤ f2 → mbGo a b f1 alo ahi blo bhi = mbGo a b f2 alo ahi blo bhi := by
  intro f1
  induction f1 with
  | zero =>
    intro f2 alo ahi blo bhi h1 _
    have hz := flm_size_zero_of_le a b alo ahi blo bhi (by omega)
    cases f2 with
    | zero => rfl
    | succ g =>
      show mbGo a b 0 alo ahi blo bhi = mbGo a b (g + 1) alo ahi blo bhi
      simp [mbGo, hz]
  | succ f ih =>
    intro f2 alo ahi blo bhi h1 h2
    cases f2 with
    | zero =>
      have hz := flm_size_zero_of_le a b alo ahi blo bhi (by omega)
      simp [mbGo, hz]
    | succ g =>
      simp only [mbGo]
      by_cases hs : 1 ≤ (findLongestMatch a b alo ahi blo bhi).size
      · rw [if_pos hs, if_pos hs]
        obtain ⟨hb1, hb2, hb3, hb4⟩ := (findLongestMatch_inv a b alo ahi blo bhi).2 hs
        congr 1
        · exact ih g alo (findLongestMatch a b alo ahi blo bhi).i blo
            (findLongestMatch a b alo ahi blo bhi).j (by omega) (by omega)
        · congr 1
          exact ih g
            ((findLongestMatch a b alo ahi blo bhi).i
              + (findLongestMatch a b alo ahi blo bhi).size) ahi
            ((findLongestMatch a b alo ahi blo bhi).j
              + (findLongestMatch a b alo ahi blo bhi).size) bhi
            (by omega) (by omega)
      · rw [if_neg hs, if_neg hs]

/-- The clean recursive equation for `matchingBlocksRec`. -/
theorem matchingBlocksRec_eq (a b : List Char) (alo ahi blo bhi : Nat) :
    matchingBlocksRec a b alo ahi blo bhi =
      if 1 ≤ (findLongestMatch a b alo ahi blo bhi).size then
        matchingBlocksRec a b alo (findLongestMatch a b alo ahi blo bhi).i blo
            (findLongestMatch a b alo ahi blo bhi).j
          ++ ((findLongestMatch a b alo ahi blo bhi).i,
              (findLongestMatch a b alo ahi blo bhi).j,
              (findLongestMatch a b alo ahi blo bhi).size)
            :: matchingBlocksRec a b
                ((findLongestMatch a b alo ahi blo bhi).i
                  + (findLongestMatch a b alo ahi blo bhi).size) ahi
                ((findLongestMatch a b alo ahi blo bhi).j
                  + (findLongestMatch a b alo ahi blo bhi).size) bhi
      else [] := by
  unfold matchingBlocksRec
  cases hn : ahi - alo with
  | zero =>
    have hz := flm_size_zero_of_le a b alo ahi blo bhi (by omega)
    simp [mbGo, hz]
  | succ t =>
    simp only [mbGo]
    by_cases hs : 1 ≤ (findLongestMatch a b alo ahi blo bhi).size
    · rw [if_pos hs, if_pos hs]
      have hb := (findLongestMatch_inv a b alo ahi blo bhi).2 hs
      congr 1
      · exact mbGo_fuel a b t _ alo _ blo _ (by omega) (by omega)
      · congr 1
        exact mbGo_fuel a b t _ _ ahi _ bhi (by omega) (by omega)
    · rw [if_neg hs, if_neg hs]

theorem chainBlocks_mono : ∀ (l : List (Nat × Nat × Nat)) (i0 j0 ihi jhi i0' j0' ihi' jhi' : Nat),
    ChainBlocks l i0 j0 ihi jhi → i0' ≤ i0 → j0' ≤ j0 → ihi ≤ ihi' → jhi ≤ jhi' →
    ChainBlocks l i0' j0' ihi' jhi' := by
  intro l
  induction l with
  | nil =>
    intro i0 j0 ihi jhi i0' j0' ihi' jhi' h h1 h2 h3 h4
    obtain ⟨ha, hb⟩ := h
    exact ⟨by omega, by omega⟩
  | cons blk rest ih =>
    obtain ⟨ai, bj, k⟩ := blk
    intro i0 j0 ihi jhi i0' j0' ihi' jhi' h h1 h2 h3 h4
    obtain ⟨ha, hb, hk, hrest⟩ := h
    exact ⟨by omega, by omega, hk, ih _ _ _ _ _ _ _ _ hrest le_rfl le_rfl h3 h4⟩

theorem chainBlocks_append : ∀ (l1 l2 : List (Nat × Nat × Nat)) (i0 j0 mi mj ihi jhi : Nat),
    ChainBlocks l1 i0 j0 mi mj → ChainBlocks l2 mi mj ihi jhi →
    ChainBlocks (l1 ++ l2) i0 j0 ihi jhi := by
  intro l1
  induction l1 with
  | nil =>
    intro l2 i0 j0 mi mj ihi jhi h1 h2
    exact chainBlocks_mono l2 mi mj ihi jhi i0 j0 ihi jhi h2 h1.1 h1.2 le_rfl le_rfl
  | cons blk rest ih =>
    obtain ⟨ai, bj, k⟩ := blk
    intro l2 i0 j0 mi mj ihi jhi h1 h2
    obtain ⟨ha, hb, hk, hrest⟩ := h1
    exact ⟨ha, hb, hk, ih l2 _ _ _ _ _ _ hrest h2⟩

theorem chainBlocks_ends : ∀ (l : List (Nat × Nat × Nat)) (i0 j0 ihi jhi : Nat),
    ChainBlocks l i0 j0 ihi jhi → i0 ≤ ihi ∧ j0 ≤ jhi := by
  intro l
  induction l with
  | nil => intro i0 j0 ihi jhi h; exact h
  | cons blk rest ih =>
    obtain ⟨ai, bj, k⟩ := blk
    intro i0 j0 ihi jhi h
    obtain ⟨ha, hb, hk, hrest⟩ := h
    have := ih _ _ _ _ hrest
    exact ⟨by omega, by omega⟩

theorem matchingBlocksRec_chain (a b : List Char) : ∀ (n alo ahi blo bhi : Nat),
    ahi - alo ≤ n → alo ≤ ahi → blo ≤ bhi →
    ChainBlocks (matchingBlocksRec a b alo ahi blo bhi) alo blo ahi bhi := by
  intro n
  induction n with
  | zero =>
    intro alo ahi blo bhi h1 h2 h3
    have hz : ahi - alo = 0 := by omega
    unfold matchingBlocksRec
    rw [hz]
    exact ⟨h2, h3⟩
  | succ n ih =>
    intro alo ahi blo bhi h1 h2 h3
    rw [matchingBlocksRec_eq]
    by_cases hs : 1 ≤ (findLongestMatch a b alo ahi blo bhi).size
    · rw [if_pos hs]
      have hb := (findLongestMatch_inv a b alo ahi blo bhi).2 hs
      obtain ⟨hb1, hb2, hb3, hb4⟩ := hb
      have hleft := ih alo (findLongestMatch a b alo ahi blo bhi).i blo
        (findLongestMatch a b alo ahi blo bhi).j (by omega) (by omega) (by omega)
      have hright := ih ((findLongestMatch a b alo ahi blo bhi).i
          + (findLongestMatch a b alo ahi blo bhi).size) ahi
        ((findLongestMatch a b alo ahi blo bhi).j
          + (findLongestMatch a b alo ahi blo bhi).size) bhi
        (by omega) (by omega) (by omega)
      exact chainBlocks_append _ _ alo blo _ _ ahi bhi hleft ⟨le_rfl, le_rfl, hs, hright⟩
    · rw [if_neg hs]
      exact ⟨h2, h3⟩

/-! ### The collected blocks are already sorted, so the sort is the identity -/

theorem chainBlocks_first_le : ∀ (l : List (Nat × Nat × Nat)) (i0 j0 ihi jhi : Nat),
    ChainBlocks l i0 j0 ihi jhi → ∀ x ∈ l, i0 ≤ x.1 := by
  intro l
  induction l with
  | nil => intro i0 j0 ihi jhi _ x hx; simp at hx
  | cons blk rest ih =>
    obtain ⟨ai, bj, k⟩ := blk
    intro i0 j0 ihi jhi h x hx
    obtain ⟨ha, hb, hk, hrest⟩ := h
    rcases List.mem_cons.mp hx with hx | hx
    · subst hx; exact ha
    · have := ih _ _ _ _ hrest x hx
      omega

theorem chainBlocks_sorted : ∀ (l : List (Nat × Nat × Nat)) (i0 j0 ihi jhi : Nat),
    ChainBlocks l i0 j0 ihi jhi → List.Sorted blockLe l := by
  intro l
  induction l with
  | nil => intro _ _ _ _ _; exact List.sorted_nil
  | cons blk rest ih =>
    obtain ⟨ai, bj, k⟩ := blk
    intro i0 j0 ihi jhi h
    obtain ⟨ha, hb, hk, hrest⟩ := h
    rw [List.sorted_cons]
    constructor
    · intro x hx
      have := chainBlocks_first_le rest _ _ _ _ hrest x hx
      exact Or.inl (by omega)
    · exact ih _ _ _ _ hrest

/-! ### Merging adjacent blocks preserves the chain -/

theorem mergeAdjacent_chain : ∀ (l : List (Nat × Nat × Nat)) (i1 j1 k1 s t ihi jhi : Nat),
    ChainBlocks l (i1 + k1) (j1 + k1) ihi jhi → s ≤ i1 → t ≤ j1 →
    ChainBlocks (mergeAdjacent l i1 j1 k1) s t ihi jhi := by
  intro l
  induction l with
  | nil =>
    intro i1 j1 k1 s t ihi jhi h hs ht
    obtain ⟨h1, h2⟩ := h
    show ChainBlocks (if 1 ≤ k1 then [(i1, j1, k1)] else []) s t ihi jhi
    by_cases hk : 1 ≤ k1
    · rw [if_pos hk]
      exact ⟨hs, ht, hk, h1, h2⟩
    · rw [if_neg hk]
      exact ⟨by omega, by omega⟩
  | cons blk rest ih =>
    obtain ⟨i2, j2, k2⟩ := blk
    intro i1 j1 k1 s t ihi jhi h hs ht
    obtain ⟨h1, h2, hk2, hrest⟩ := h
    show ChainBlocks
      (if i1 + k1 = i2 ∧ j1 + k1 = j2 then mergeAdjacent rest i1 j1 (k1 + k2)
       else if 1 ≤ k1 then (i1, j1, k1) :: mergeAdjacent rest i2 j2 k2
       else mergeAdjacent rest i2 j2 k2) s t ihi jhi
    by_cases hadj : i1 + k1 = i2 ∧ j1 + k1 = j2
    · rw [if_pos hadj]
      apply ih i1 j1 (k1 + k2) s t ihi jhi _ hs ht
      have he1 : i1 + (k1 + k2) = i2 + k2 := by omega
      have he2 : j1 + (k1 + k2) = j2 + k2 := by omega
      rw [he1, he2]
      exact hrest
    · rw [if_neg hadj]
      by_cases hk : 1 ≤ k1
      · rw [if_pos hk]
        exact ⟨hs, ht, hk, ih i2 j2 k2 _ _ ihi jhi hrest h1 h2⟩
      · rw [if_neg hk]
        exact ih i2 j2 k2 s t ihi jhi hrest (by omega) (by omega)

/-- The merged, terminated block list of `get_matching_blocks` is a chain from
`(0, 0)` to `(len a, len b)` (before appending the terminator). -/
theorem getMatchingBlocks_chain (a b : List Char) :
    ChainBlocks
      (mergeAdjacent
        (List.insertionSort blockLe (matchingBlocksRec a b 0 a.length 0 b.length)) 0 0 0)
      0 0 a.length b.length := by
  have hrec := matchingBlocksRec_chain a b a.length 0 a.length 0 b.length
    (by omega) (by omega) (by omega)
  rw [List.Sorted.insertionSort_eq (chainBlocks_sorted _ _ _ _ _ hrec)]
  exact mergeAdjacent_chain _ 0 0 0 0 0 a.length b.length (by simpa using hrec) le_rfl le_rfl

/-! ### Concatenating the emitted runs reproduces the candidate (C2) -/

theorem sliceB_glue (b : List Char) (x y z : Nat) (h1 : x ≤ y) (h2 : y ≤ z) :
    sliceB b x y ++ sliceB b y z = sliceB b x z := by
  unfold sliceB
  have e1 : z - x = (y - x) + (z - y) := by omega
  rw [e1, List.take_add]
  congr 2
  rw [List.drop_drop]
  congr 1
  omega

theorem opcodeLoop_runs (b : List Char) (la lb : Nat) :
    ∀ (l : List (Nat × Nat × Nat)) (i j : Nat), ChainBlocks l i j la lb →
      ((((opcodeLoop (l ++ [(la, lb, 0)]) i j).filterMap (runOf b)).map Prod.snd)).flatten
        = sliceB b j lb := by
  intro l
  induction l with
  | nil =>
    intro i j h
    obtain ⟨h1, h2⟩ := h
    simp only [List.nil_append, opcodeLoop]
    by_cases c1 : i < la ∧ j < lb
    · rw [if_pos c1]
      simp [runOf]
    · rw [if_neg c1]
      by_cases c2 : i < la
      · rw [if_pos c2]
        have hj : j = lb := by omega
        simp [runOf, sliceB, hj]
      · rw [if_neg c2]
        by_cases c3 : j < lb
        · rw [if_pos c3]
          simp [runOf]
        · rw [if_neg c3]
          have hj : j = lb := by omega
          simp [runOf, sliceB, hj]
  | cons blk rest ih =>
    obtain ⟨ai, bj, k⟩ := blk
    intro i j h
    obtain ⟨h1, h2, hk, hrest⟩ := h
    have hends := chainBlocks_ends rest _ _ _ _ hrest
    simp only [List.cons_append, opcodeLoop, List.append_eq]
    rw [if_pos hk, List.filterMap_append, List.filterMap_append, List.map_append,
      List.map_append, List.flatten_append, List.flatten_append]
    rw [ih (ai + k) (bj + k) hrest]
    have hgap : ((((if i < ai ∧ j < bj then [(EditTag.replace, i, ai, j, bj)]
        else if i < ai then [(EditTag.delete, i, ai, j, bj)]
        else if j < bj then [(EditTag.insert, i, ai, j, bj)]
        else []).filterMap (runOf b)).map Prod.snd)).flatten = sliceB b j bj := by
      by_cases c1 : i < ai ∧ j < bj
      · rw [if_pos c1]
        simp [runOf]
      · rw [if_neg c1]
        by_cases c2 : i < ai
        · rw [if_pos c2]
          have hj : j = bj := by omega
          simp [runOf, sliceB, hj]
        · rw [if_neg c2]
          by_cases c3 : j < bj
          · rw [if_pos c3]
            simp [runOf]
          · rw [if_neg c3]
            have hj : j = bj := by omega
            simp [runOf, sliceB, hj]
    rw [hgap]
    have heq2 : (((([(EditTag.equal, ai, ai + k, bj, bj + k)] :
        List (EditTag × Nat × Nat × Nat × Nat))).filterMap (runOf b)).map Prod.snd).flatten
        = sliceB b bj (bj + k) := by
      simp [runOf]
    rw [heq2]
    rw [sliceB_glue b j bj (bj + k) h2 (by omega)]
    rw [sliceB_glue b j (bj + k) lb (by omega) (by omega)]

/-- Concatenating the contents of the runs produced by the Diff Highlighter
reproduces the candidate exactly. -/
theorem highlightRuns_concat (a b : List Char) :
    ((highlightRunList a b).map Prod.snd).flatten = b := by
  unfold highlightRunList getOpcodes getMatchingBlocks
  rw [opcodeLoop_runs b a.length b.length _ 0 0 (getMatchingBlocks_chain a b)]
  simp [sliceB]

/-- Every run's style marker is a complete color-control sequence. -/
theorem styleOf_mkSeq (t : RunTag) :
    ∃ ds, (∀ c ∈ ds, seqChar c = true) ∧ styleOf t = mkSeq ds := by
  cases t with
  | matched => exact ⟨['9', '2'], by decide, rfl⟩
  | substituted => exact ⟨['9', '1'], by decide, rfl⟩
  | inserted => exact ⟨['9', '5'], by decide, rfl⟩

theorem strip_runs : ∀ (runs : List (RunTag × List Char)),
    (∀ r ∈ runs, hasSeq r.2 = false) →
    stripAnsi ((runs.map (fun r => styleOf r.1 ++ r.2 ++ mkSeq ['0'])).flatten)
      = (runs.map Prod.snd).flatten := by
  intro runs
  induction runs with
  | nil =>
    intro _
    simpa using stripAnsi_nil
  | cons r rest ih =>
    intro h
    have hr := h r (by simp)
    simp only [List.map_cons, List.flatten_cons]
    obtain ⟨ds, hds, hsty⟩ := styleOf_mkSeq r.1
    rw [hsty]
    have he : ((mkSeq ds ++ r.2 ++ mkSeq ['0']) ++
          ((rest.map (fun r => styleOf r.1 ++ r.2 ++ mkSeq ['0'])).flatten))
        = ([] ++ mkSeq ds ++
            (r.2 ++ mkSeq ['0'] ++ (rest.map (fun r => styleOf r.1 ++ r.2 ++ mkSeq ['0'])).flatten)) := by
      simp
    rw [he, stripAnsi_plain_seq [] ds _ rfl hds, List.nil_append,
      stripAnsi_plain_seq r.2 ['0'] _ hr (by decide),
      ih (fun x hx => h x (by simp [hx]))]

/-- C2 counterexample: when the candidate itself contains a complete
color-control sequence, stripping the highlighter's output does not reproduce
the candidate (query `""`, candidate `"\x1b[0m"` gives `""`). -/
theorem claimC2_cex :
    stripAnsi (highlightDifferences [] ['\x1b', '[', '0', 'm']) ≠ ['\x1b', '[', '0', 'm'] := by
  decide

/-- C2 (amended): for every query and candidate, concatenating the un-styled
characters of all runs emitted by the Diff Highlighter reproduces the
candidate exactly; stripping the color-control sequences from
`highlight_differences(query, candidate)` also reproduces the candidate
provided the candidate itself contains no complete color-control sequence. -/
theorem claimC2 (a b : List Char) :
    ((highlightRunList a b).map Prod.snd).flatten = b ∧
    (hasSeq b = false → stripAnsi (highlightDifferences a b) = b) := by
  refine ⟨highlightRuns_concat a b, fun hb => ?_⟩
  have hruns : ∀ r ∈ highlightRunList a b, hasSeq r.2 = false := by
    intro r hr
    have hmem : r.2 ∈ (highlightRunList a b).map Prod.snd := List.mem_map_of_mem _ hr
    obtain ⟨s, t, hst⟩ := List.append_of_mem hmem
    have hb2 : b = s.flatten ++ r.2 ++ t.flatten := by
      rw [← highlightRuns_concat a b, hst]
      simp
    exact hasSeq_false_of_sub hb hb2
  unfold highlightDifferences
  rw [strip_runs _ hruns, highlightRuns_concat]

/-- Witness for C2 at the concrete input query `"gti"`, candidate `"git"`. -/
theorem claimC2_witness :
    stripAnsi (highlightDifferences ['g', 't', 'i'] ['g', 'i', 't']) = ['g', 'i', 't'] :=
  (claimC2 ['g', 't', 'i'] ['g', 'i', 't']).2 (by decide)

theorem innerLoop_fn (j2old : Nat → Nat) (i : Nat) :
    ∀ (js : List Nat) (j2new : Nat → Nat) (best : FLMatch) (x : Nat),
      (innerLoop j2old i js j2new best).1 x
        = if x ∈ js then dpK j2old x else j2new x := by
  intro js
  induction js with
  | nil =>
    intro j2new best x
    simp [innerLoop]
  | cons j js ih =>
    intro j2new best x
    show (innerLoop j2old i js (updFn j2new j (dpK j2old j)) (bestUpd i j (dpK j2old j) best)).1 x
      = if x ∈ j :: js then dpK j2old x else j2new x
    rw [ih]
    by_cases hx : x ∈ js
    · rw [if_pos hx, if_pos (by simp [hx])]
    · rw [if_neg hx]
      unfold updFn
      by_cases hxj : x = j
      · rw [if_pos hxj, if_pos (by simp [hxj]), hxj]
      · rw [if_neg hxj, if_neg (by simp [hxj, hx])]

theorem innerLoop_best (j2old : Nat → Nat) (i : Nat) :
    ∀ (js : List Nat) (j2new : Nat → Nat) (best : FLMatch),
      (innerLoop j2old i js j2new best).2
        = List.foldl (fun bst j => bestUpd i j (dpK j2old j) bst) best js := by
  intro js
  induction js with
  | nil => intro j2new best; rfl
  | cons j js ih =>
    intro j2new best
    show (innerLoop j2old i js (updFn j2new j (dpK j2old j)) (bestUpd i j (dpK j2old j) best)).2
      = List.foldl (fun bst j => bestUpd i j (dpK j2old j) bst) (bestUpd i j (dpK j2old j) best) js
    rw [ih]

theorem outerLoop_append (a b : List Char) (blo bhi : Nat) :
    ∀ (l1 l2 : List Nat) (st : (Nat → Nat) × FLMatch),
      outerLoop a b blo bhi (l1 ++ l2) st
        = outerLoop a b blo bhi l2 (outerLoop a b blo bhi l1 st) := by
  intro l1
  induction l1 with
  | nil => intro l2 st; rfl
  | cons i l1 ih =>
    intro l2 st
    show outerLoop a b blo bhi (l1 ++ l2)
        (innerLoop st.1 i (rowIndices a b blo bhi i) (fun _ => 0) st.2)
      = _
    rw [ih]
    rfl

theorem outerState_succ (a b : List Char) (r : Nat) :
    outerState a b (r + 1)
      = innerLoop (outerState a b r).1 r (rowIndices a b 0 b.length r)
          (fun _ => 0) (outerState a b r).2 := by
  unfold outerState
  have he : List.range' 0 (r + 1) = List.range' 0 r ++ [r] := by
    have := @List.range'_concat 1 0 r
    simpa using this
  rw [he, outerLoop_append]
  show outerLoop a b 0 b.length []
      (innerLoop _ r (rowIndices a b 0 b.length r) (fun _ => 0) _) = _
  rfl

theorem outerState_j2 (a b : List Char) : ∀ (r x : Nat),
    (outerState a b (r + 1)).1 x = ddp a b r x := by
  have key : ∀ r x, (outerState a b r).1 x = if r = 0 then 0 else ddp a b (r - 1) x := by
    intro r
    induction r with
    | zero => intro x; rfl
    | succ r ih =>
      intro x
      rw [outerState_succ, innerLoop_fn]
      by_cases hx : x ∈ rowIndices a b 0 b.length r
      · rw [if_pos hx]
        cases r with
        | zero =>
          cases x with
          | zero => simp [dpK, ddp, hx]
          | succ x' =>
            have hz : (outerState a b 0).1 x' = 0 := rfl
            simp [dpK, hz, ddp, hx]
        | succ r' =>
          cases x with
          | zero => simp [dpK, ddp, hx]
          | succ x' =>
            have hprev : (outerState a b (r' + 1)).1 x' = ddp a b r' x' := by
              rw [ih x']; simp
            simp only [dpK, Nat.succ_ne_zero, if_false, Nat.add_sub_cancel, hprev]
            simp [ddp, hx]
      · rw [if_neg hx]
        have hz : ddp a b r x = 0 := by
          cases r with
          | zero =>
            cases x with
            | zero => simp [ddp, hx]
            | succ x' => simp [ddp, hx]
          | succ r' =>
            cases x with
            | zero => simp [ddp, hx]
            | succ x' => simp [ddp, hx]
        simp [hz]
  intro r x
  rw [key (r + 1) x]
  simp

theorem dpK_row (a b : List Char) (r j : Nat)
    (hj : j ∈ rowIndices a b 0 b.length r) :
    dpK (outerState a b r).1 j = ddp a b r j := by
  cases r with
  | zero =>
    cases j with
    | zero => simp [dpK, ddp, hj]
    | succ j' =>
      have hz : (outerState a b 0).1 j' = 0 := rfl
      simp [dpK, hz, ddp, hj]
  | succ r' =>
    cases j with
    | zero => simp [dpK, ddp, hj]
    | succ j' =>
      have hprev : (outerState a b (r' + 1)).1 j' = ddp a b r' j' := outerState_j2 a b r' j'
      simp only [dpK, Nat.succ_ne_zero, if_false, Nat.add_sub_cancel, hprev]
      simp [ddp, hj]

/-! ### Self-comparison: the running best stays on the diagonal -/

/-- When comparing `a` with itself, membership of any cell in a row forces the
two diagonal cells to be present as well (popularity and character equality
are properties of the character value, which is shared). -/
theorem mem_rowIndices_self (a : List Char) (i j : Nat)
    (h : j ∈ rowIndices a a 0 a.length i) :
    i ∈ rowIndices a a 0 a.length i ∧ j ∈ rowIndices a a 0 a.length j := by
  unfold rowIndices at h
  cases ha : a[i]? with
  | none => rw [ha] at h; simp at h
  | some c =>
    rw [ha] at h
    have h1 := (List.mem_filter.mp h).1
    have hpop : isPopular a c = false := by
      unfold b2jList at h1
      by_cases hp : isPopular a c
      · rw [if_pos hp] at h1; simp at h1
      · simpa using hp
    rw [b2jList, hpop] at h1
    simp only [Bool.false_eq_true, if_false] at h1
    unfold positionsOf at h1
    have hjc : a[j]? = some c := by
      have := (List.mem_filter.mp h1).2
      simpa using this
    have hjn : j < a.length := (List.mem_range.mp (List.mem_filter.mp h1).1)
    have hin : i < a.length := by
      rcases List.getElem?_eq_some_iff.mp ha with ⟨hlt, _⟩
      exact hlt
    constructor
    · unfold rowIndices
      rw [ha]
      rw [List.mem_filter]
      refine ⟨?_, by simp [hin]⟩
      rw [b2jList, hpop]
      simp only [Bool.false_eq_true, if_false]
      unfold positionsOf
      rw [List.mem_filter]
      exact ⟨List.mem_range.mpr hin, by simp [ha]⟩
    · unfold rowIndices
      rw [hjc]
      rw [List.mem_filter]
      refine ⟨?_, by simp [hjn]⟩
      rw [b2jList, hpop]
      simp only [Bool.false_eq_true, if_false]
      unfold positionsOf
      rw [List.mem_filter]
      exact ⟨List.mem_range.mpr hjn, by simp [hjc]⟩

theorem ddp_pos_of_mem (a b : List Char) (i j : Nat)
    (h : j ∈ rowIndices a b 0 b.length i) : 1 ≤ ddp a b i j := by
  cases i with
  | zero =>
    cases j with
    | zero => simp [ddp, h]
    | succ j' => simp [ddp, h]
  | succ i' =>
    cases j with
    | zero => simp [ddp, h]
    | succ j' => simp [ddp, h]

theorem ddp_zero_of_not_mem (a b : List Char) (i j : Nat)
    (h : j ∉ rowIndices a b 0 b.length i) : ddp a b i j = 0 := by
  cases i with
  | zero =>
    cases j with
    | zero => simp [ddp, h]
    | succ j' => simp [ddp, h]
  | succ i' =>
    cases j with
    | zero => simp [ddp, h]
    | succ j' => simp [ddp, h]

/-- Diagonal dominance for self-comparison: every cell of the DP table is
bounded by both diagonal cells on its row and column. -/
theorem ddp_le_diag (a : List Char) : ∀ i j,
    ddp a a i j ≤ ddp a a j j ∧ ddp a a i j ≤ ddp a a i i := by
  intro i
  induction i with
  | zero =>
    intro j
    by_cases hm : j ∈ rowIndices a a 0 a.length 0
    · have hself := mem_rowIndices_self a 0 j hm
      have h1 : ddp a a 0 j ≤ 1 := by
        cases j with
        | zero => simp only [ddp]; split <;> omega
        | succ j' => simp only [ddp]; split <;> omega
      exact ⟨le_trans h1 (ddp_pos_of_mem a a j j hself.2),
        le_trans h1 (ddp_pos_of_mem a a 0 0 hself.1)⟩
    · rw [ddp_zero_of_not_mem a a 0 j hm]
      exact ⟨Nat.zero_le _, Nat.zero_le _⟩
  | succ i' ih =>
    intro j
    cases j with
    | zero =>
      by_cases hm : 0 ∈ rowIndices a a 0 a.length (i' + 1)
      · have hself := mem_rowIndices_self a (i' + 1) 0 hm
        have h1 : ddp a a (i' + 1) 0 ≤ 1 := by
          simp only [ddp]; split <;> omega
        exact ⟨le_trans h1 (ddp_pos_of_mem a a 0 0 hself.2),
          le_trans h1 (ddp_pos_of_mem a a (i' + 1) (i' + 1) hself.1)⟩
      · rw [ddp_zero_of_not_mem a a (i' + 1) 0 hm]
        exact ⟨Nat.zero_le _, Nat.zero_le _⟩
    | succ j' =>
      by_cases hm : j' + 1 ∈ rowIndices a a 0 a.length (i' + 1)
      · have hself := mem_rowIndices_self a (i' + 1) (j' + 1) hm
        have he : ddp a a (i' + 1) (j' + 1) = ddp a a i' j' + 1 := by simp [ddp, hm]
        have hedi : ddp a a (i' + 1) (i' + 1) = ddp a a i' i' + 1 := by
          simp [ddp, hself.1]
        have hedj : ddp a a (j' + 1) (j' + 1) = ddp a a j' j' + 1 := by
          simp [ddp, hself.2]
        have hih := ih j'
        rw [he, hedi, hedj]
        omega
      · rw [ddp_zero_of_not_mem a a (i' + 1) (j' + 1) hm]
        exact ⟨Nat.zero_le _, Nat.zero_le _⟩

theorem rowIndices_pairwise (a b : List Char) (blo bhi i : Nat) :
    List.Pairwise (· < ·) (rowIndices a b blo bhi i) := by
  unfold rowIndices
  cases ha : a[i]? with
  | none => exact List.Pairwise.nil
  | some c =>
    apply List.Pairwise.filter
    unfold b2jList
    by_cases hp : isPopular b c
    · rw [if_pos hp]; exact List.Pairwise.nil
    · rw [if_neg hp]
      exact (List.pairwise_lt_range b.length).filter _

theorem foldl_bestUpd_noop (i : Nat) (v : Nat → Nat) :
    ∀ (js : List Nat) (best : FLMatch), (∀ j ∈ js, v j ≤ best.size) →
      List.foldl (fun bst j => bestUpd i j (v j) bst) best js = best := by
  intro js
  induction js with
  | nil => intro best _; rfl
  | cons j js ih =>
    intro best h
    have hj := h j (by simp)
    have hstep : bestUpd i j (v j) best = best := by
      unfold bestUpd
      rw [if_neg (by omega)]
    show List.foldl _ (bestUpd i j (v j) best) js = best
    rw [hstep]
    exact ih best (fun x hx => h x (by simp [hx]))

theorem rowStep_diag (a : List Char) (r : Nat) (best : FLMatch)
    (hdiag : best.i = best.j)
    (hmax : ∀ i, i < r → ddp a a i i ≤ best.size) :
    (List.foldl (fun bst j => bestUpd r j (dpK (outerState a a r).1 j) bst) best
        (rowIndices a a 0 a.length r)).i
      = (List.foldl (fun bst j => bestUpd r j (dpK (outerState a a r).1 j) bst) best
          (rowIndices a a 0 a.length r)).j ∧
    ∀ i, i < r + 1 → ddp a a i i ≤
      (List.foldl (fun bst j => bestUpd r j (dpK (outerState a a r).1 j) bst) best
        (rowIndices a a 0 a.length r)).size := by
  by_cases hrow : rowIndices a a 0 a.length r = []
  · rw [hrow]
    refine ⟨hdiag, fun i hi => ?_⟩
    by_cases hir : i = r
    · subst hir
      have : ddp a a i i = 0 := ddp_zero_of_not_mem a a i i (by
        intro hmem
        rw [hrow] at hmem
        simp at hmem)
      omega
    · exact hmax i (by omega)
  · have hr_mem : r ∈ rowIndices a a 0 a.length r := by
      obtain ⟨j, hj⟩ := List.exists_mem_of_ne_nil _ hrow
      exact (mem_rowIndices_self a r j hj).1
    obtain ⟨L, R, hsplit⟩ := List.append_of_mem hr_mem
    have hsorted := rowIndices_pairwise a a 0 a.length r
    rw [hsplit] at hsorted
    have hLlt : ∀ x ∈ L, x < r := by
      intro x hx
      exact (List.pairwise_append.mp hsorted).2.2 x hx r (by simp)
    have hRgt : ∀ x ∈ R, r < x := by
      intro x hx
      have := (List.pairwise_append.mp hsorted).2.1
      exact (List.pairwise_cons.mp this).1 x hx
    have hsub : ∀ x, x ∈ rowIndices a a 0 a.length r → dpK (outerState a a r).1 x = ddp a a r x :=
      fun x hx => dpK_row a a r x hx
    rw [hsplit, List.foldl_append]
    have hL : List.foldl (fun bst j => bestUpd r j (dpK (outerState a a r).1 j) bst) best L
        = best := by
      apply foldl_bestUpd_noop
      intro j hj
      have hjmem : j ∈ rowIndices a a 0 a.length r := by rw [hsplit]; simp [hj]
      rw [hsub j hjmem]
      have h1 := (ddp_le_diag a r j).1
      have h2 := hmax j (hLlt j hj)
      omega
    rw [hL]
    have hbest2 : (bestUpd r r (ddp a a r r) best).i = (bestUpd r r (ddp a a r r) best).j ∧
        ddp a a r r ≤ (bestUpd r r (ddp a a r r) best).size ∧
        best.size ≤ (bestUpd r r (ddp a a r r) best).size := by
      unfold bestUpd
      by_cases hlt : best.size < ddp a a r r
      · rw [if_pos hlt]
        refine ⟨rfl, le_rfl, ?_⟩
        show best.size ≤ ddp a a r r
        omega
      · rw [if_neg hlt]
        exact ⟨hdiag, by omega, le_rfl⟩
    have hcons : List.foldl (fun bst j => bestUpd r j (dpK (outerState a a r).1 j) bst)
          best (r :: R)
        = List.foldl (fun bst j => bestUpd r j (dpK (outerState a a r).1 j) bst)
            (bestUpd r r (ddp a a r r) best) R := by
      show List.foldl _ (bestUpd r r (dpK (outerState a a r).1 r) best) R = _
      rw [hsub r hr_mem]
    rw [hcons]
    have hR : List.foldl (fun bst j => bestUpd r j (dpK (outerState a a r).1 j) bst)
        (bestUpd r r (ddp a a r r) best) R = bestUpd r r (ddp a a r r) best := by
      apply foldl_bestUpd_noop
      intro j hj
      have hjmem : j ∈ rowIndices a a 0 a.length r := by rw [hsplit]; simp [hj]
      rw [hsub j hjmem]
      have h1 := (ddp_le_diag a r j).2
      have h2 := hbest2.2.1
      omega
    rw [hR]
    refine ⟨hbest2.1, fun i hi => ?_⟩
    by_cases hir : i = r
    · subst hir
      exact hbest2.2.1
    · have := hmax i (by omega)
      have := hbest2.2.2
      omega

theorem outerState_best_diag (a : List Char) : ∀ r,
    (outerState a a r).2.i = (outerState a a r).2.j ∧
    ∀ i, i < r → ddp a a i i ≤ (outerState a a r).2.size := by
  intro r
  induction r with
  | zero => exact ⟨rfl, fun i hi => absurd hi (by omega)⟩
  | succ r ih =>
    rw [outerState_succ, innerLoop_best]
    exact rowStep_diag a r (outerState a a r).2 ih.1 ih.2

/-! ### The full-range self-match is the whole string -/

theorem sameAt_self (a : List Char) (i : Nat) (h : i < a.length) :
    sameAt a a i i = true := by
  unfold sameAt
  rw [List.getElem?_eq_getElem h]
  simp

theorem extendBack_diag (a : List Char) : ∀ e s, e + s ≤ a.length →
    extendBack a a 0 0 e e s = ⟨0, 0, e + s⟩ := by
  intro e
  induction e with
  | zero =>
    intro s _
    show (⟨0, 0, s⟩ : FLMatch) = ⟨0, 0, 0 + s⟩
    rw [Nat.zero_add]
  | succ e ih =>
    intro s h
    show (if 0 < e + 1 && 0 < e + 1 && sameAt a a e (e + 1 - 1) then
        extendBack a a 0 0 e (e + 1 - 1) (s + 1) else ⟨e + 1, e + 1, s⟩) = ⟨0, 0, e + 1 + s⟩
    have hs : sameAt a a e e = true := sameAt_self a e (by omega)
    have hcond : (0 < e + 1 && 0 < e + 1 && sameAt a a e (e + 1 - 1)) = true := by
      show (0 < e + 1 && 0 < e + 1 && sameAt a a e e) = true
      simp [hs]
    rw [if_pos hcond]
    show extendBack a a 0 0 e e (s + 1) = ⟨0, 0, e + 1 + s⟩
    rw [ih (s + 1) (by omega)]
    have he : e + (s + 1) = e + 1 + s := by omega
    rw [he]

theorem extFwdGo_diag (a : List Char) : ∀ fuel t, t + fuel = a.length →
    extFwdGo a a a.length a.length fuel 0 0 t = ⟨0, 0, a.length⟩ := by
  intro fuel
  induction fuel with
  | zero =>
    intro t h
    show (⟨0, 0, t⟩ : FLMatch) = ⟨0, 0, a.length⟩
    have : t = a.length := by omega
    rw [this]
  | succ fuel ih =>
    intro t h
    show (if 0 + t < a.length && 0 + t < a.length && sameAt a a (0 + t) (0 + t) then
        extFwdGo a a a.length a.length fuel 0 0 (t + 1) else ⟨0, 0, t⟩) = ⟨0, 0, a.length⟩
    have ht : t < a.length := by omega
    have hcond : (0 + t < a.length && 0 + t < a.length && sameAt a a (0 + t) (0 + t)) = true := by
      have := sameAt_self a t ht
      simp [Nat.zero_add, this, ht]
    rw [if_pos hcond]
    exact ih (t + 1) (by omega)

/-- `find_longest_match(0, n, 0, n)` on two identical sequences returns the
whole string: whatever the DP phase finds, its best is diagonal, and the
extension loops then extend it to the full range (popular characters are
extended over, since `bjunk = ∅`). -/
theorem flm_self (a : List Char) :
    findLongestMatch a a 0 a.length 0 a.length = ⟨0, 0, a.length⟩ := by
  have h0 : J2Inv 0 a.length 0 (fun _ => 0) := fun j => by constructor <;> simp
  have hb0 : BestInv 0 a.length 0 a.length ⟨0, 0, 0⟩ :=
    ⟨fun _ => rfl, fun h => absurd h (by simp)⟩
  have hbi : BestInv 0 a.length 0 a.length (outerState a a a.length).2 := by
    unfold outerState
    exact outerLoop_inv a a 0 a.length 0 a.length a.length 0 0
      (fun _ => 0, ⟨0, 0, 0⟩) (by omega) (by omega) h0 hb0
  have hdiag := (outerState_best_diag a a.length).1
  have hbound : (outerState a a a.length).2.i + (outerState a a a.length).2.size
      ≤ a.length := by
    by_cases hs0 : (outerState a a a.length).2.size = 0
    · have heq := hbi.1 hs0
      have he : (outerState a a a.length).2.i = 0 := congrArg FLMatch.i heq
      omega
    · have := hbi.2 (by omega)
      omega
  have hstep : findLongestMatch a a 0 a.length 0 a.length
      = extendFwd a a a.length a.length
          (extendBack a a 0 0 (outerState a a a.length).2.i
            (outerState a a a.length).2.j (outerState a a a.length).2.size).i
          (extendBack a a 0 0 (outerState a a a.length).2.i
            (outerState a a a.length).2.j (outerState a a a.length).2.size).j
          (extendBack a a 0 0 (outerState a a a.length).2.i
            (outerState a a a.length).2.j (outerState a a a.length).2.size).size := rfl
  rw [hstep, ← hdiag,
    extendBack_diag a (outerState a a a.length).2.i (outerState a a a.length).2.size hbound]
  show extFwdGo a a a.length a.length
    (a.length - (0 + ((outerState a a a.length).2.i + (outerState a a a.length).2.size)))
    0 0 ((outerState a a a.length).2.i + (outerState a a a.length).2.size) = _
  exact extFwdGo_diag a _ _ (by omega)

theorem matchingBlocksRec_self (a : List Char) (h : a ≠ []) :
    matchingBlocksRec a a 0 a.length 0 a.length = [(0, 0, a.length)] := by
  have hn : 1 ≤ a.length := List.length_pos.mpr h
  rw [matchingBlocksRec_eq, flm_self]
  show (if 1 ≤ a.length then
      matchingBlocksRec a a 0 0 0 0
        ++ (0, 0, a.length) :: matchingBlocksRec a a (0 + a.length) a.length
            (0 + a.length) a.length
    else []) = [(0, 0, a.length)]
  rw [if_pos hn]
  have hright : matchingBlocksRec a a (0 + a.length) a.length (0 + a.length) a.length = [] := by
    unfold matchingBlocksRec
    rw [show a.length - (0 + a.length) = 0 from by omega]
    rfl
  rw [hright, show matchingBlocksRec a a 0 0 0 0 = [] from rfl]
  rfl

theorem getMatchingBlocks_self (a : List Char) (h : a ≠ []) :
    getMatchingBlocks a a = [(0, 0, a.length), (a.length, a.length, 0)] := by
  have hn : 1 ≤ a.length := List.length_pos.mpr h
  unfold getMatchingBlocks
  rw [matchingBlocksRec_self a h,
    List.Sorted.insertionSort_eq (List.sorted_singleton _)]
  show mergeAdjacent [] 0 0 (0 + a.length) ++ [(a.length, a.length, 0)] = _
  show (if 1 ≤ 0 + a.length then [(0, 0, 0 + a.length)] else [])
    ++ [(a.length, a.length, 0)] = _
  rw [Nat.zero_add, if_pos hn]
  rfl

theorem matchesTotal_self (a : List Char) (h : a ≠ []) : matchesTotal a a = a.length := by
  unfold matchesTotal
  rw [getMatchingBlocks_self a h]
  simp

/-- `ratio(a, a) = 1.0` for every string, including strings long enough for
autojunk: popular characters are only removed from `b2j`, not junked, so the
extension loops still grow the match to the whole string. -/
theorem ratioDifflib_self (a : List Char) : ratioDifflib a a = 1 := by
  by_cases h : a = []
  · subst h; rfl
  · have hn : 1 ≤ a.length := List.length_pos.mpr h
    unfold ratioDifflib
    rw [matchesTotal_self a h]
    unfold calcRatioQ
    rw [if_pos (by omega : 1 ≤ a.length + a.length), Rat.mkRat_eq_div]
    have h2 : ((a.length + a.length : Nat) : ℚ) ≠ 0 := by
      rw [Nat.cast_ne_zero]
      omega
    have he : ((2 * (a.length : Int) : Int) : ℚ) = ((a.length + a.length : Nat) : ℚ) := by
      push_cast
      ring
    rw [he, div_self h2]

theorem getOpcodes_self (a : List Char) (h : a ≠ []) :
    getOpcodes a a = [(EditTag.equal, 0, a.length, 0, a.length)] := by
  have hn : 1 ≤ a.length := List.length_pos.mpr h
  unfold getOpcodes
  rw [getMatchingBlocks_self a h]
  simp [opcodeLoop, hn]

theorem highlight_self (a : List Char) (h : a ≠ []) :
    highlightDifferences a a = mkSeq ['9', '2'] ++ a ++ mkSeq ['0'] := by
  unfold highlightDifferences highlightRunList
  rw [getOpcodes_self a h]
  simp [runOf, styleOf, sliceB]

/-! ### Disjoint character sets -/

theorem sameAt_disjoint (a b : List Char) (hdisj : ∀ c ∈ a, c ∉ b) (i j : Nat) :
    sameAt a b i j = false := by
  unfold sameAt
  cases ha : a[i]? with
  | none => cases hb : b[j]? <;> rfl
  | some x =>
    cases hb : b[j]? with
    | none => rfl
    | some y =>
      rcases List.getElem?_eq_some_iff.mp ha with ⟨hlt1, he1⟩
      rcases List.getElem?_eq_some_iff.mp hb with ⟨hlt2, he2⟩
      have hxa : x ∈ a := he1 ▸ List.getElem_mem hlt1
      have hyb : y ∈ b := he2 ▸ List.getElem_mem hlt2
      have hne : x ≠ y := fun he => (hdisj x hxa) (he ▸ hyb)
      show (x == y) = false
      simp [hne]

theorem rowIndices_disjoint (a b : List Char) (hdisj : ∀ c ∈ a, c ∉ b)
    (blo bhi i : Nat) : rowIndices a b blo bhi i = [] := by
  unfold rowIndices
  cases ha : a[i]? with
  | none => rfl
  | some c =>
    rcases List.getElem?_eq_some_iff.mp ha with ⟨hlt, he⟩
    have hca : c ∈ a := he ▸ List.getElem_mem hlt
    have hpos : positionsOf b c = [] := by
      unfold positionsOf
      rw [List.filter_eq_nil_iff]
      intro j _ hbj
      have hj : b[j]? = some c := by simpa using hbj
      rcases List.getElem?_eq_some_iff.mp hj with ⟨hlt2, he2⟩
      exact (hdisj c hca) (he2 ▸ List.getElem_mem hlt2)
    show List.filter (fun j => decide (blo ≤ j) && decide (j < bhi))
      (if isPopular b c = true then [] else positionsOf b c) = []
    rw [hpos, ite_self]
    rfl

theorem outerLoop_best_const (a b : List Char) (blo bhi : Nat)
    (hrows : ∀ i, rowIndices a b blo bhi i = []) :
    ∀ (rows : List Nat) (st : (Nat → Nat) × FLMatch),
      (outerLoop a b blo bhi rows st).2 = st.2 := by
  intro rows
  induction rows with
  | nil => intro st; rfl
  | cons i rows ih =>
    intro st
    show (outerLoop a b blo bhi rows
      (innerLoop st.1 i (rowIndices a b blo bhi i) (fun _ => 0) st.2)).2 = st.2
    rw [hrows i]
    exact ih _

theorem flm_disjoint (a b : List Char) (hdisj : ∀ c ∈ a, c ∉ b) :
    findLongestMatch a b 0 a.length 0 b.length = ⟨0, 0, 0⟩ := by
  have hbest : (outerLoop a b 0 b.length (List.range' 0 (a.length - 0))
      (fun _ => 0, ⟨0, 0, 0⟩)).2 = ⟨0, 0, 0⟩ :=
    outerLoop_best_const a b 0 b.length (rowIndices_disjoint a b hdisj 0 b.length) _ _
  have hfwd : ∀ fuel, extFwdGo a b a.length b.length fuel 0 0 0 = ⟨0, 0, 0⟩ := by
    intro fuel
    cases fuel with
    | zero => rfl
    | succ f =>
      show (if 0 + 0 < a.length && 0 + 0 < b.length && sameAt a b (0 + 0) (0 + 0) then
          extFwdGo a b a.length b.length f 0 0 (0 + 1) else ⟨0, 0, 0⟩) = ⟨0, 0, 0⟩
      rw [sameAt_disjoint a b hdisj]
      simp
  have hstep : findLongestMatch a b 0 a.length 0 b.length
      = extendFwd a b a.length b.length
          (extendBack a b 0 0
            (outerLoop a b 0 b.length (List.range' 0 (a.length - 0))
              (fun _ => 0, ⟨0, 0, 0⟩)).2.i
            (outerLoop a b 0 b.length (List.range' 0 (a.length - 0))
              (fun _ => 0, ⟨0, 0, 0⟩)).2.j
            (outerLoop a b 0 b.length (List.range' 0 (a.length - 0))
              (fun _ => 0, ⟨0, 0, 0⟩)).2.size).i
          (extendBack a b 0 0
            (outerLoop a b 0 b.length (List.range' 0 (a.length - 0))
              (fun _ => 0, ⟨0, 0, 0⟩)).2.i
            (outerLoop a b 0 b.length (List.range' 0 (a.length - 0))
              (fun _ => 0, ⟨0, 0, 0⟩)).2.j
            (outerLoop a b 0 b.length (List.range' 0 (a.length - 0))
              (fun _ => 0, ⟨0, 0, 0⟩)).2.size).j
          (extendBack a b 0 0
            (outerLoop a b 0 b.length (List.range' 0 (a.length - 0))
              (fun _ => 0, ⟨0, 0, 0⟩)).2.i
            (outerLoop a b 0 b.length (List.range' 0 (a.length - 0))
              (fun _ => 0, ⟨0, 0, 0⟩)).2.j
            (outerLoop a b 0 b.length (List.range' 0 (a.length - 0))
              (fun _ => 0, ⟨0, 0, 0⟩)).2.size).size := rfl
  rw [hstep, hbest]
  show extFwdGo a b a.length b.length (a.length - (0 + 0)) 0 0 0 = ⟨0, 0, 0⟩
  exact hfwd _

theorem ratioDifflib_disjoint (a b : List Char) (hdisj : ∀ c ∈ a, c ∉ b)
    (hT : 1 ≤ a.length + b.length) : ratioDifflib a b = 0 := by
  have hm : matchesTotal a b = 0 := by
    unfold matchesTotal getMatchingBlocks
    rw [matchingBlocksRec_eq, flm_disjoint a b hdisj]
    rw [if_neg (by decide : ¬(1 ≤ (⟨0, 0, 0⟩ : FLMatch).size))]
    show ((mergeAdjacent (List.insertionSort blockLe []) 0 0 0
      ++ [(a.length, b.length, 0)]).map (fun t : Nat × Nat × Nat => t.2.2)).sum = 0
    simp [mergeAdjacent, List.insertionSort]
  unfold ratioDifflib
  rw [hm]
  unfold calcRatioQ
  rw [if_pos hT]
  show mkRat (2 * ((0 : Nat) : Int)) (a.length + b.length) = 0
  norm_num [Rat.zero_mkRat]

/-! ## Claims C3 and C4 -/

/-- C3 counterexample: two empty strings have (vacuously) completely disjoint
character sets, yet the Match Ranker's ratio gives them similarity 1.0, not
0.0 (`_calculate_ratio` returns 1.0 when the combined length is 0). -/
theorem claimC3_cex :
    (∀ c ∈ ([] : List Char), c ∉ ([] : List Char))
      ∧ ratioDifflib [] [] ≠ 0 ∧ ratioDifflib [] [] = 1 := by
  refine ⟨fun c hc => absurd hc (by simp), ?_, rfl⟩
  intro h
  have h1 : ratioDifflib [] [] = 1 := rfl
  rw [h] at h1
  exact absurd h1 (by norm_num)

/-- C3 (amended): `similarity(a, a) = 1.0` for every string `a` (including
long strings subject to autojunk), and `similarity(a, b) = 0.0` for completely
disjoint character sets provided the two strings are not both empty (where the
ratio is defined to be 1.0 instead). -/
theorem claimC3 (a b : List Char) :
    ratioDifflib a a = 1 ∧
    ((∀ c ∈ a, c ∉ b) → 1 ≤ a.length + b.length → ratioDifflib a b = 0) :=
  ⟨ratioDifflib_self a, fun h1 h2 => ratioDifflib_disjoint a b h1 h2⟩

/-- Witness for C3 at concrete inputs: `ratio("git", "git") = 1` and
`ratio("a", "b") = 0`. -/
theorem claimC3_witness :
    ratioDifflib ['g', 'i', 't'] ['g', 'i', 't'] = 1 ∧ ratioDifflib ['a'] ['b'] = 0 :=
  ⟨(claimC3 ['g', 'i', 't'] []).1, (claimC3 ['a'] ['b']).2 (by decide) (by decide)⟩

/-- C4 counterexample: for the identical pair of empty strings the
highlighter's output is empty — not the candidate wrapped once in the matched
style (there is no run at all). -/
theorem claimC4_cex :
    highlightDifferences [] [] ≠ mkSeq ['9', '2'] ++ ([] : List Char) ++ mkSeq ['0'] := by
  decide

/-- C4 (amended): for every pair of identical nonempty strings the Diff
Highlighter's entire output is the candidate wrapped once in the matched
(green) style, a single "matched" run; the highlighter is a total function,
so it raises no error on any input pair. -/
theorem claimC4 (a : List Char) (h : a ≠ []) :
    highlightDifferences a a = mkSeq ['9', '2'] ++ a ++ mkSeq ['0'] :=
  highlight_self a h

/-- Witness for C4 at the concrete input `"git"`. -/
theorem claimC4_witness :
    highlightDifferences ['g', 'i', 't'] ['g', 'i', 't']
      = mkSeq ['9', '2'] ++ ['g', 'i', 't'] ++ mkSeq ['0'] :=
  claimC4 ['g', 'i', 't'] (by decide)

/-! ## Claim C1: get_close_matches returns at most n=5 names, all at or above
the cutoff, in descending similarity order -/

theorem listLe_total : ∀ x y : List Char, listLe x y = true ∨ listLe y x = true := by
  intro x
  induction x with
  | nil => intro y; left; rfl
  | cons c cs ih =>
    intro y
    cases y with
    | nil => right; rfl
    | cons d ds =>
      rcases lt_trichotomy c d with h | h | h
      · left; simp [listLe, h]
      · subst h
        simpa [listLe, lt_irrefl] using ih ds
      · right; simp [listLe, h]

theorem listLe_trans : ∀ x y z : List Char,
    listLe x y = true → listLe y z = true → listLe x z = true := by
  intro x
  induction x with
  | nil => intro y z _ _; rfl
  | cons c cs ih =>
    intro y z hxy hyz
    cases y with
    | nil => simp [listLe] at hxy
    | cons d ds =>
      cases z with
      | nil => simp [listLe] at hyz
      | cons e es =>
        by_cases h1 : c < d
        · by_cases h2 : d < e
          · simp [listLe, lt_trans h1 h2]
          · by_cases h3 : e < d
            · simp [listLe, h2, h3] at hyz
            · have hde : d = e := le_antisymm (not_lt.mp h3) (not_lt.mp h2)
              subst hde
              simp [listLe, h1]
        · by_cases h1' : d < c
          · simp [listLe, h1, h1'] at hxy
          · have hcd : c = d := le_antisymm (not_lt.mp h1') (not_lt.mp h1)
            subst hcd
            simp only [listLe, lt_irrefl, if_false] at hxy
            by_cases h2 : c < e
            · simp [listLe, h2]
            · by_cases h3 : e < c
              · simp [listLe, h2, h3] at hyz
              · have hce : c = e := le_antisymm (not_lt.mp h3) (not_lt.mp h2)
                subst hce
                simp only [listLe, lt_irrefl, if_false] at hyz ⊢
                exact ih ds es hxy hyz

theorem candRel_total (w : List Char) : ∀ x y, candRel w x y ∨ candRel w y x := by
  intro x y
  rcases lt_trichotomy (ratioDifflib x w) (ratioDifflib y w) with h | h | h
  · right; left; exact h
  · rcases listLe_total x y with h2 | h2
    · right; right; exact ⟨h.symm, h2⟩
    · left; right; exact ⟨h, h2⟩
  · left; left; exact h

theorem candRel_trans (w : List Char) :
    ∀ x y z, candRel w x y → candRel w y z → candRel w x z := by
  intro x y z hxy hyz
  rcases hxy with h1 | ⟨h1e, h1l⟩
  · rcases hyz with h2 | ⟨h2e, _⟩
    · left; exact lt_trans h2 h1
    · left; rw [← h2e]; exact h1
  · rcases hyz with h2 | ⟨h2e, h2l⟩
    · left; rw [h1e]; exact h2
    · right; exact ⟨h1e.trans h2e, listLe_trans z y x h2l h1l⟩

/-- C1: for every query string and candidate set, the Match Ranker
(`difflib.get_close_matches(command, executables, n=5, cutoff=0.4)`) returns
at most 5 candidate names, each drawn from the candidate set with similarity
(the matching-blocks ratio `2*M/T`) at or above the cutoff 0.4 = 2/5, ordered
by descending similarity. -/
theorem claimC1 (word : List Char) (cands : List (List Char)) :
    (getCloseMatches word cands 5 (mkRat 2 5)).length ≤ 5 ∧
    (∀ x ∈ getCloseMatches word cands 5 (mkRat 2 5),
      x ∈ cands ∧ mkRat 2 5 ≤ ratioDifflib x word) ∧
    List.Sorted (fun x y => ratioDifflib y word ≤ ratioDifflib x word)
      (getCloseMatches word cands 5 (mkRat 2 5)) := by
  refine ⟨?_, ?_, ?_⟩
  · unfold getCloseMatches
    exact List.length_take_le 5 _
  · intro x hx
    unfold getCloseMatches at hx
    have hx2 : x ∈ List.insertionSort (candRel word)
        (cands.filter (closeEnough word (mkRat 2 5))) := List.mem_of_mem_take hx
    have hx3 : x ∈ cands.filter (closeEnough word (mkRat 2 5)) :=
      (List.perm_insertionSort _ _).mem_iff.mp hx2
    have hx4 := List.mem_filter.mp hx3
    refine ⟨hx4.1, ?_⟩
    have hc := hx4.2
    unfold closeEnough at hc
    simp only [Bool.and_eq_true, decide_eq_true_eq] at hc
    exact hc.2
  · unfold getCloseMatches
    haveI : IsTotal (List Char) (candRel word) := ⟨candRel_total word⟩
    haveI : IsTrans (List Char) (candRel word) := ⟨candRel_trans word⟩
    have hs := List.sorted_insertionSort (candRel word)
      (cands.filter (closeEnough word (mkRat 2 5)))
    have hs2 : List.Sorted (fun x y => ratioDifflib y word ≤ ratioDifflib x word)
        (List.insertionSort (candRel word)
          (cands.filter (closeEnough word (mkRat 2 5)))) := by
      apply List.Pairwise.imp _ hs
      intro x y hxy
      rcases hxy with h | ⟨he, _⟩
      · exact le_of_lt h
      · exact he.ge
    exact List.Pairwise.sublist (List.take_sublist _ _) hs2

/-- Witness for C1 at the concrete query `"gti"` and candidate set
`{"git"}`: the returned name is a candidate with similarity at least 2/5. -/
theorem claimC1_witness :
    ['g', 'i', 't'] ∈ [['g', 'i', 't']] ∧
    mkRat 2 5 ≤ ratioDifflib ['g', 'i', 't'] ['g', 't', 'i'] :=
  (claimC1 ['g', 't', 'i'] [['g', 'i', 't']]).2.1 ['g', 'i', 't'] (by decide)

/-- C7: for every query that resolves via exact lookup (the resolver returns a
truthy path), `witch` prints only the resolved path and returns it; the
result is the same for every choice of path variable, directory structure and
listing oracle, so the Candidate Set is never constructed and the Match
Ranker is never invoked. -/
theorem claimC7 (env : WEnv) (cmd p : String) (hw : env.which cmd = some p)
    (hp : p ≠ "") : witchModel env cmd = Except.ok ([p], some p) := by
  unfold witchModel
  rw [hw]
  simp [truthyStr, hp]

/-- Witness for C7 at a concrete environment and query. -/
theorem claimC7_witness :
    witchModel envExact "ls" = Except.ok (["/bin/ls"], some "/bin/ls") :=
  claimC7 envExact "ls" "/bin/ls" rfl (by decide)

/-- C8: with the search-path variable unset or empty (and the exact lookup
modelled from the spec as a scan of the search-path directories), the exact
lookup yields nothing, the Candidate Enumerator yields zero candidates
without error, and the system prints exactly
"Command not found and no close matches.". -/
theorem claimC8 (env : WEnv) (cmd : String)
    (hwhich : ∀ c, env.which c = whichSpec env c)
    (hpath : env.pathVar = none ∨ env.pathVar = some "")
    (hdir : env.isdir "" = false)
    (hentry : ∀ c, env.hasExecEntry "" c = false) :
    env.which cmd = none ∧ enumerateExecs env = Except.ok [] ∧
    witchModel env cmd
      = Except.ok (["Command not found and no close matches."], none) := by
  have hnone : env.which cmd = none := by
    rw [hwhich cmd]
    unfold whichSpec specDirs
    rcases hpath with h | h <;> rw [h]
    · rfl
    · show (match List.find? (fun d => env.hasExecEntry d cmd) [""] with
        | some d => some (d ++ "/" ++ cmd)
        | none => none) = none
      simp [List.find?, hentry cmd]
  have hget : env.pathVar.getD "" = "" := by
    rcases hpath with h | h <;> simp [h]
  have henum : enumerateExecs env = Except.ok [] := by
    unfold enumerateExecs
    rw [hget]
    have hsplit : splitColon "" = [""] := rfl
    rw [hsplit]
    show (match collectExecs env [""] with
      | Except.ok l => Except.ok l.dedup
      | Except.error e => Except.error e) = Except.ok []
    unfold collectExecs
    rw [hdir]
    rfl
  refine ⟨hnone, henum, ?_⟩
  unfold witchModel
  rw [hnone]
  show (match enumerateExecs env with
    | Except.error e => Except.error e
    | Except.ok execs =>
      match getCloseMatchesS cmd execs with
      | [] => Except.ok (["Command not found and no close matches."], none)
      | m :: ms =>
        Except.ok (["\nCommand not found. Did you mean:\n", headerLine, dashLine]
          ++ ((m :: ms).map (rowLine env cmd)), none)) = _
  rw [henum]
  rfl

/-- Witness for C8 at a concrete environment. -/
theorem claimC8_witness :
    envEmpty.which "gti" = none ∧ enumerateExecs envEmpty = Except.ok [] ∧
    witchModel envEmpty "gti"
      = Except.ok (["Command not found and no close matches."], none) :=
  claimC8 envEmpty "gti" (fun _ => rfl) (Or.inl rfl) rfl (fun _ => rfl)

/-- C9 counterexample: a directory that passes the `os.path.isdir` filter but
whose listing fails (permission denied) is not silently skipped — the
exception propagates out of the Candidate Enumerator. -/
theorem claimC9_cex : enumerateExecs envPerm = Except.error () := rfl

/-- C9 (amended): directories that are missing or not directories (those
failing `os.path.isdir`) are silently skipped and contribute nothing; when
every directory passing `isdir` lists successfully, the enumerator returns
the deduplicated set of entry names of those directories.  A directory
passing `isdir` whose listing fails (e.g. permission denied) instead raises. -/
theorem claimC9 (env : WEnv)
    (hok : ∀ d, env.isdir d = true → (env.listdir d).isOk = true) :
    ∃ l, enumerateExecs env = Except.ok l ∧ l.Nodup ∧
      ∀ name, name ∈ l ↔ ∃ d ∈ splitColon (env.pathVar.getD ""),
        env.isdir d = true ∧ name ∈ okListdir env d := by
  have hcol : ∀ dirs : List String,
      ∃ l, collectExecs env dirs = Except.ok l ∧
        ∀ name, name ∈ l ↔ ∃ d ∈ dirs, env.isdir d = true ∧ name ∈ okListdir env d := by
    intro dirs
    induction dirs with
    | nil => exact ⟨[], rfl, by simp⟩
    | cons p ps ih =>
      obtain ⟨l, hl, hmem⟩ := ih
      by_cases hp : env.isdir p = true
      · have hok_p := hok p hp
        cases hfs : env.listdir p with
        | error e =>
          rw [hfs] at hok_p
          simp [Except.isOk, Except.toBool] at hok_p
        | ok fs =>
          refine ⟨fs ++ l, ?_, ?_⟩
          · unfold collectExecs
            rw [hp]
            show (match env.listdir p with
              | Except.ok fs =>
                match collectExecs env ps with
                | Except.ok rest => Except.ok (fs ++ rest)
                | Except.error e => Except.error e
              | Except.error e => Except.error e) = Except.ok (fs ++ l)
            rw [hfs, hl]
          · intro name
            constructor
            · intro hn
              rcases List.mem_append.mp hn with hn | hn
              · exact ⟨p, by simp, hp, by simp [okListdir, hfs, hn]⟩
              · obtain ⟨d, hd1, hd2, hd3⟩ := (hmem name).mp hn
                exact ⟨d, by simp [hd1], hd2, hd3⟩
            · rintro ⟨d, hd1, hd2, hd3⟩
              rcases List.mem_cons.mp hd1 with h | h
              · subst h
                apply List.mem_append.mpr
                left
                simpa [okListdir, hfs] using hd3
              · exact List.mem_append.mpr (Or.inr ((hmem name).mpr ⟨d, h, hd2, hd3⟩))
      · refine ⟨l, ?_, ?_⟩
        · unfold collectExecs
          rw [if_neg (by simpa using hp)]
          exact hl
        · intro name
          rw [hmem name]
          constructor
          · rintro ⟨d, hd1, hd2, hd3⟩
            exact ⟨d, by simp [hd1], hd2, hd3⟩
          · rintro ⟨d, hd1, hd2, hd3⟩
            rcases List.mem_cons.mp hd1 with h | h
            · subst h; exact absurd hd2 (by simpa using hp)
            · exact ⟨d, h, hd2, hd3⟩
  obtain ⟨l, hl, hmem⟩ := hcol (splitColon (env.pathVar.getD ""))
  refine ⟨l.dedup, ?_, List.nodup_dedup l, ?_⟩
  · unfold enumerateExecs
    rw [hl]
  · intro name
    rw [List.mem_dedup]
    exact hmem name

/-- Witness for C9 at a concrete environment whose listings all succeed. -/
theorem claimC9_witness :
    ∃ l, enumerateExecs envOk = Except.ok l ∧ l.Nodup ∧
      ∀ name, name ∈ l ↔ ∃ d ∈ splitColon (envOk.pathVar.getD ""),
        envOk.isdir d = true ∧ name ∈ okListdir envOk d :=
  claimC9 envOk (fun d _ => by
    show (envOk.listdir d).isOk = true
    unfold envOk
    by_cases h : (d == "/bin") = true <;> simp [h, Except.isOk, Except.toBool])

/-- C10: whenever `witch` returns (rather than propagating a listing
exception), the return value is the resolved path exactly when the exact
lookup succeeds (returns a truthy path) and `None` in every other case —
including when a suggestion table is printed — so the return value alone
distinguishes exact resolution from every fallback outcome. -/
theorem claimC10 (env : WEnv) (cmd : String) (out : List String)
    (ret : Option String)
    (h : witchModel env cmd = Except.ok (out, ret)) :
    (truthyStr (env.which cmd) = true → ret = env.which cmd) ∧
    (truthyStr (env.which cmd) = false → ret = none) ∧
    (ret ≠ none ↔ truthyStr (env.which cmd) = true) := by
  unfold witchModel at h
  by_cases ht : truthyStr (env.which cmd) = true
  · rw [if_pos ht] at h
    simp only [Except.ok.injEq, Prod.mk.injEq] at h
    refine ⟨fun _ => h.2.symm, fun hf => absurd ht (by simp [hf]), ?_⟩
    constructor
    · intro _; exact ht
    · intro _
      rw [← h.2]
      cases hw : env.which cmd with
      | none => rw [hw] at ht; simp [truthyStr] at ht
      | some p => simp
  · rw [if_neg ht] at h
    have hret : ret = none := by
      cases he : enumerateExecs env with
      | error e =>
        rw [he] at h
        have h2 : (Except.error e : Except Unit (List String × Option String))
            = Except.ok (out, ret) := h
        simp at h2
      | ok execs =>
        rw [he] at h
        have h2 : (match getCloseMatchesS cmd execs with
          | [] => Except.ok (["Command not found and no close matches."], none)
          | m :: ms =>
            Except.ok (["\nCommand not found. Did you mean:\n", headerLine, dashLine]
              ++ List.map (rowLine env cmd) (m :: ms), none))
            = Except.ok (out, ret) := h
        cases hm : getCloseMatchesS cmd execs with
        | nil =>
          rw [hm] at h2
          simp only [Except.ok.injEq, Prod.mk.injEq] at h2
          exact h2.2.symm
        | cons m ms =>
          rw [hm] at h2
          simp only [Except.ok.injEq, Prod.mk.injEq] at h2
          exact h2.2.symm
    refine ⟨fun htr => absurd htr ht, fun _ => hret, ?_⟩
    constructor
    · intro hne; exact absurd hret hne
    · intro htr; exact absurd htr ht

/-- Witness for C10 at a concrete environment where the lookup succeeds. -/
theorem claimC10_witness :
    (truthyStr (envExact.which "ls") = true → some "/bin/ls" = envExact.which "ls") ∧
    (truthyStr (envExact.which "ls") = false → some "/bin/ls" = none) ∧
    (some "/bin/ls" ≠ none ↔ truthyStr (envExact.which "ls") = true) :=
  claimC10 envExact "ls" ["/bin/ls"] (some "/bin/ls") rfl

end WitchSpec
